import Mathlib

/-!
Verification of the AVL-tree core of `avl_tree_viz` (files `avl_tree/node.py`,
`avl_tree/avl.py`, `avl_tree/visualize.py`) against its specification.

The Python code mutates nodes in place but every mutating helper returns the
new subtree root, which the caller stores back into the parent slot; since
every node is exclusively owned by its parent, the tree-shaped result of each
operation is exactly the value computed by the purely functional recursion
below.  Python `None` is the constructor `Node.nil`; an `AttributeError`
raised by dereferencing an absent child is modelled by `Option.none`.
-/

set_option maxHeartbeats 1000000

namespace Avl

/-- `avl_tree/node.py`: dataclass `Node(value, left, right, height)`, a leaf is
created with height 1; `nil` stands for Python `None`. -/
inductive Node where
  | nil : Node
  | node (value : Int) (left : Node) (right : Node) (height : Nat) : Node
deriving DecidableEq

/-- `AVLTree.get_height`: `node.height if node else 0`. -/
def get_height : Node → Nat
  | .nil => 0
  | .node _ _ _ h => h

/-- `AVLTree.update_height`: `node.height = 1 + max(height(left), height(right))`.
Only ever called on a present node; on `nil` Python would raise, the value is
irrelevant here. -/
def update_height : Node → Node
  | .nil => .nil
  | .node v l r _ => .node v l r (1 + max (get_height l) (get_height r))

/-- `AVLTree.get_balance`: `0` for an absent node, else
`get_height(left) - get_height(right)` (cached heights). -/
def get_balance : Node → Int
  | .nil => 0
  | .node _ l r _ => (get_height l : Int) - (get_height r : Int)

/-- `AVLTree.right_rotate(y)`: requires `y.left` present (`x = y.left`,
`T2 = x.right`, `x.right = y`, `y.left = T2`, update height of `y` then `x`).
Dereferencing an absent `y.left` is `none`. -/
def right_rotate : Node → Option Node
  | .node v (.node lv ll lr _) r _ =>
      some (.node lv ll (.node v lr r (1 + max (get_height lr) (get_height r)))
        (1 + max (get_height ll) (1 + max (get_height lr) (get_height r))))
  | _ => none

/-- `AVLTree.left_rotate(x)`: mirror image of `right_rotate`, requires
`x.right` present. -/
def left_rotate : Node → Option Node
  | .node v l (.node rv rl rr _) _ =>
      some (.node rv (.node v l rl (1 + max (get_height l) (get_height rl))) rr
        (1 + max (1 + max (get_height l) (get_height rl)) (get_height rr)))
  | _ => none

/-- Rebalancing tail of `_insert` (avl.py lines 94-135), applied to the node
after `update_height`.  The four sequential `if` guards of the source are
mutually exclusive on the sign of `balance`, so they are grouped here by that
sign; inside each sign the source's order (LL before LR, RR before RL) is
kept, which preserves the source's control flow exactly, including which
child dereferences are attempted (`node.left.value` is only read when
`balance > 1`, `node.right.value` only when `balance < -1`). -/
def insRebalance (key : Int) (n : Node) : Option Node :=
  match n with
  | .nil => none
  | .node v l r h =>
    let b := get_balance (.node v l r h)
    if 1 < b then
      match l with
      | .nil => none
      | .node lv ll lr lh =>
        if key < lv then
          right_rotate (.node v (.node lv ll lr lh) r h)
        else if lv < key then
          match left_rotate (.node lv ll lr lh) with
          | none => none
          | some l2 => right_rotate (.node v l2 r h)
        else some (.node v l r h)
    else if b < -1 then
      match r with
      | .nil => none
      | .node rv rl rr rh =>
        if rv < key then
          left_rotate (.node v l (.node rv rl rr rh) h)
        else if key < rv then
          match right_rotate (.node rv rl rr rh) with
          | none => none
          | some r2 => left_rotate (.node v l r2 h)
        else some (.node v l r h)
    else some (.node v l r h)

/-- Tree-shaped result of `_insert` (avl.py lines 80-135): BST descent, a new
leaf of height 1 at an absent slot, duplicate keys returned unchanged, then
`update_height` and the rotation-case dispatch on the unwind. -/
def insertT : Node → Int → Option Node
  | .nil, key => some (.node key .nil .nil 1)
  | .node v l r h, key =>
    if key < v then
      match insertT l key with
      | none => none
      | some l2 => insRebalance key (update_height (.node v l2 r h))
    else if v < key then
      match insertT r key with
      | none => none
      | some r2 => insRebalance key (update_height (.node v l r2 h))
    else some (.node v l r h)

/-- `AVLTree._min_value_node`: follow `left` links from a present node. On
`nil` Python would raise, modelled by `none`. -/
def min_value_node : Node → Option Node
  | .nil => none
  | .node v .nil r h => some (.node v .nil r h)
  | .node _ (.node lv ll lr lh) _ _ => min_value_node (.node lv ll lr lh)

/-- Rebalancing tail of `_delete` (avl.py lines 189-231): the four sequential
guards dispatch on the sign of `balance` and the child's own balance. -/
def delRebalance (n : Node) : Option Node :=
  match n with
  | .nil => none
  | .node v l r h =>
    let b := get_balance (.node v l r h)
    if 1 < b ∧ 0 ≤ get_balance l then
      right_rotate (.node v l r h)
    else if 1 < b ∧ get_balance l < 0 then
      match left_rotate l with
      | none => none
      | some l2 => right_rotate (.node v l2 r h)
    else if b < -1 ∧ get_balance r ≤ 0 then
      left_rotate (.node v l r h)
    else if b < -1 ∧ 0 < get_balance r then
      match right_rotate r with
      | none => none
      | some r2 => left_rotate (.node v l r2 h)
    else some (.node v l r h)

/-- Tree-shaped result of `_delete` (avl.py lines 159-231): BST descent (a
missing key just logs and returns `None` unchanged), the three splice cases at
the match, and `update_height` plus deletion rebalancing on the unwind. -/
def deleteT : Node → Int → Option Node
  | .nil, _ => some .nil
  | .node v l r h, key =>
    if key < v then
      match deleteT l key with
      | none => none
      | some l2 => delRebalance (update_height (.node v l2 r h))
    else if v < key then
      match deleteT r key with
      | none => none
      | some r2 => delRebalance (update_height (.node v l r2 h))
    else
      match l, r with
      | .nil, _ => some r
      | _, .nil => some l
      | _, _ =>
        match min_value_node r with
        | none => none
        | some .nil => none
        | some (.node mv _ _ _) =>
          match deleteT r mv with
          | none => none
          | some r2 => delRebalance (update_height (.node mv l r2 h))

/-- `AVLTree.count_nodes`. -/
def count_nodes : Node → Nat
  | .nil => 0
  | .node _ l r _ => 1 + count_nodes l + count_nodes r

/-! ### Invariants (spec section 3) -/

/-- Structural key membership. -/
def memB : Node → Int → Bool
  | .nil, _ => false
  | .node v l r _, k => (k == v) || memB l k || memB r k

/-- `p` holds of every key of the tree. -/
def allKeys (p : Int → Bool) : Node → Bool
  | .nil => true
  | .node v l r _ => p v && allKeys p l && allKeys p r

/-- BST order invariant: at every node, keys on the left are strictly smaller
and keys on the right strictly greater. -/
def isBST : Node → Bool
  | .nil => true
  | .node v l r _ =>
      allKeys (fun k => decide (k < v)) l && allKeys (fun k => decide (v < k)) r
        && isBST l && isBST r

/-- True (recomputed) height of a tree: 0 for absent, else `1 + max` of the
children's true heights. -/
def realHeight : Node → Nat
  | .nil => 0
  | .node _ l r _ => 1 + max (realHeight l) (realHeight r)

/-- Height-cache invariant: every stored `height` field equals
`1 + max(get_height left, get_height right)`. -/
def heightCacheOk : Node → Bool
  | .nil => true
  | .node _ l r h =>
      (h == 1 + max (get_height l) (get_height r)) && heightCacheOk l && heightCacheOk r

/-- Balance factor computed from true heights. -/
def realBalance : Node → Int
  | .nil => 0
  | .node _ l r _ => (realHeight l : Int) - (realHeight r : Int)

/-- AVL balance invariant over true heights: `-1 ≤ balance ≤ 1` at every node. -/
def isBalanced : Node → Bool
  | .nil => true
  | .node v l r h =>
      decide (-1 ≤ realBalance (.node v l r h)) && decide (realBalance (.node v l r h) ≤ 1)
        && isBalanced l && isBalanced r

/-- All three data-model invariants together. -/
def wfB (n : Node) : Bool := isBST n && heightCacheOk n && isBalanced n

/-- In-order key sequence. -/
def inorder : Node → List Int
  | .nil => []
  | .node v l r _ => inorder l ++ v :: inorder r

/-- Trees reachable from the empty tree by a finite sequence of (successful)
public `insert` / `delete` operations. -/
inductive Reachable : Node → Prop where
  | empty : Reachable .nil
  | ins {t t' : Node} {k : Int} : Reachable t → insertT t k = some t' → Reachable t'
  | del {t t' : Node} {k : Int} : Reachable t → deleteT t k = some t' → Reachable t'

/-! ### Basic lemmas -/

@[simp] theorem get_height_nil : get_height .nil = 0 := rfl

@[simp] theorem get_height_node (v : Int) (l r : Node) (h : Nat) :
    get_height (.node v l r h) = h := rfl

@[simp] theorem get_balance_nil : get_balance .nil = 0 := rfl

@[simp] theorem get_balance_node (v : Int) (l r : Node) (h : Nat) :
    get_balance (.node v l r h) = (get_height l : Int) - (get_height r : Int) := rfl

@[simp] theorem realHeight_nil : realHeight .nil = 0 := rfl

@[simp] theorem realHeight_node (v : Int) (l r : Node) (h : Nat) :
    realHeight (.node v l r h) = 1 + max (realHeight l) (realHeight r) := rfl

@[simp] theorem memB_nil (k : Int) : memB .nil k = false := rfl

@[simp] theorem memB_node (v : Int) (l r : Node) (h : Nat) (k : Int) :
    memB (.node v l r h) k = ((k == v) || memB l k || memB r k) := rfl

@[simp] theorem allKeys_nil (p : Int → Bool) : allKeys p .nil = true := rfl

@[simp] theorem allKeys_node (p : Int → Bool) (v : Int) (l r : Node) (h : Nat) :
    allKeys p (.node v l r h) = (p v && allKeys p l && allKeys p r) := rfl

@[simp] theorem isBST_nil : isBST .nil = true := rfl

@[simp] theorem isBST_node (v : Int) (l r : Node) (h : Nat) :
    isBST (.node v l r h)
      = (allKeys (fun k => decide (k < v)) l && allKeys (fun k => decide (v < k)) r
          && isBST l && isBST r) := rfl

@[simp] theorem heightCacheOk_nil : heightCacheOk .nil = true := rfl

@[simp] theorem heightCacheOk_node (v : Int) (l r : Node) (h : Nat) :
    heightCacheOk (.node v l r h)
      = ((h == 1 + max (get_height l) (get_height r)) && heightCacheOk l && heightCacheOk r) := rfl

@[simp] theorem isBalanced_nil : isBalanced .nil = true := rfl

@[simp] theorem isBalanced_node (v : Int) (l r : Node) (h : Nat) :
    isBalanced (.node v l r h)
      = (decide (-1 ≤ (realHeight l : Int) - (realHeight r : Int))
          && decide ((realHeight l : Int) - (realHeight r : Int) ≤ 1)
          && isBalanced l && isBalanced r) := rfl

@[simp] theorem inorder_nil : inorder .nil = [] := rfl

@[simp] theorem inorder_node (v : Int) (l r : Node) (h : Nat) :
    inorder (.node v l r h) = inorder l ++ v :: inorder r := rfl

theorem hc_get_height {n : Node} (h : heightCacheOk n = true) :
    get_height n = realHeight n := by
  induction n with
  | nil => rfl
  | node v l r hh ihl ihr =>
    simp only [heightCacheOk_node, Bool.and_eq_true, beq_iff_eq] at h
    rw [get_height_node, realHeight_node, h.1.1, ihl h.1.2, ihr h.2]

theorem allKeys_iff {p : Int → Bool} {t : Node} :
    allKeys p t = true ↔ ∀ k, memB t k = true → p k = true := by
  induction t with
  | nil => simp
  | node v l r h ihl ihr =>
    simp only [allKeys_node, memB_node, Bool.and_eq_true, Bool.or_eq_true, beq_iff_eq,
      ihl, ihr]
    constructor
    · rintro ⟨⟨hv, hl⟩, hr⟩ k ((rfl | hk) | hk)
      · exact hv
      · exact hl k hk
      · exact hr k hk
    · intro hall
      exact ⟨⟨hall v (Or.inl (Or.inl rfl)), fun k hk => hall k (Or.inl (Or.inr hk))⟩,
        fun k hk => hall k (Or.inr hk)⟩

theorem allKeys_mono {p q : Int → Bool} {t : Node}
    (hpq : ∀ k, p k = true → q k = true) (hall : allKeys p t = true) :
    allKeys q t = true :=
  allKeys_iff.2 fun k hk => hpq k (allKeys_iff.1 hall k hk)

theorem allKeys_of_mem_iff {p : Int → Bool} {s t : Node}
    (hmem : ∀ k, memB s k = true ↔ memB t k = true) (hall : allKeys p t = true) :
    allKeys p s = true :=
  allKeys_iff.2 fun k hk => allKeys_iff.1 hall k ((hmem k).1 hk)

theorem node_of_realHeight_pos {t : Node} (h : 0 < realHeight t) :
    ∃ v l r hh, t = .node v l r hh := by
  cases t with
  | nil => simp at h
  | node v l r hh => exact ⟨v, l, r, hh, rfl⟩

/-! ### Rotation lemmas -/

theorem right_rotate_eq (v lv : Int) (ll lr r : Node) (lh h : Nat) :
    right_rotate (.node v (.node lv ll lr lh) r h)
      = some (.node lv ll (.node v lr r (1 + max (get_height lr) (get_height r)))
          (1 + max (get_height ll) (1 + max (get_height lr) (get_height r)))) := rfl

theorem left_rotate_eq (v rv : Int) (l rl rr : Node) (rh h : Nat) :
    left_rotate (.node v l (.node rv rl rr rh) h)
      = some (.node rv (.node v l rl (1 + max (get_height l) (get_height rl))) rr
          (1 + max (1 + max (get_height l) (get_height rl)) (get_height rr))) := rfl

/-- A right rotation permutes no keys. -/
theorem memB_rotR (v lv : Int) (ll lr r : Node) (h1 h2 h3 h4 : Nat) (k : Int) :
    memB (.node lv ll (.node v lr r h2) h1) k = true
      ↔ memB (.node v (.node lv ll lr h3) r h4) k = true := by
  simp only [memB_node, Bool.or_eq_true]
  tauto

/-- A left rotation permutes no keys. -/
theorem memB_rotL (v rv : Int) (l rl rr : Node) (h1 h2 h3 h4 : Nat) (k : Int) :
    memB (.node rv (.node v l rl h2) rr h1) k = true
      ↔ memB (.node v l (.node rv rl rr h3) h4) k = true := by
  simp only [memB_node, Bool.or_eq_true]
  tauto

/-- A right rotation preserves the BST order invariant. -/
theorem isBST_rotR {v lv : Int} {ll lr r : Node} {h1 h2 h3 h4 : Nat}
    (hb : isBST (.node v (.node lv ll lr h3) r h4) = true) :
    isBST (.node lv ll (.node v lr r h2) h1) = true := by
  simp only [isBST_node, allKeys_node, Bool.and_eq_true, decide_eq_true_eq] at hb ⊢
  obtain ⟨⟨⟨⟨⟨hlvv, hllv⟩, hlrv⟩, hrv⟩, ⟨⟨⟨hlla, hlra⟩, hbll⟩, hblr⟩⟩, hbr⟩ := hb
  have hrv' : allKeys (fun k => decide (lv < k)) r = true :=
    allKeys_mono (fun k hk => by simp only [decide_eq_true_eq] at hk ⊢; omega) hrv
  and_intros <;> assumption

/-- A left rotation preserves the BST order invariant. -/
theorem isBST_rotL {v rv : Int} {l rl rr : Node} {h1 h2 h3 h4 : Nat}
    (hb : isBST (.node v l (.node rv rl rr h3) h4) = true) :
    isBST (.node rv (.node v l rl h2) rr h1) = true := by
  simp only [isBST_node, allKeys_node, Bool.and_eq_true, decide_eq_true_eq] at hb ⊢
  obtain ⟨⟨⟨hlv, ⟨⟨hvrv, hrlv⟩, hrrv⟩⟩, hbl⟩, ⟨⟨⟨hrla, hrra⟩, hbrl⟩, hbrr⟩⟩ := hb
  have hlv' : allKeys (fun k => decide (k < rv)) l = true :=
    allKeys_mono (fun k hk => by simp only [decide_eq_true_eq] at hk ⊢; omega) hlv
  and_intros <;> assumption

/-- The cached heights written by a right rotation are the recomputed ones. -/
theorem hc_rotR {v lv : Int} {ll lr r : Node}
    (hll : heightCacheOk ll = true) (hlr : heightCacheOk lr = true)
    (hr : heightCacheOk r = true) :
    heightCacheOk (.node lv ll (.node v lr r (1 + max (get_height lr) (get_height r)))
      (1 + max (get_height ll) (1 + max (get_height lr) (get_height r)))) = true := by
  simp [hll, hlr, hr]

/-- The cached heights written by a left rotation are the recomputed ones. -/
theorem hc_rotL {v rv : Int} {l rl rr : Node}
    (hl : heightCacheOk l = true) (hrl : heightCacheOk rl = true)
    (hrr : heightCacheOk rr = true) :
    heightCacheOk (.node rv (.node v l rl (1 + max (get_height l) (get_height rl))) rr
      (1 + max (1 + max (get_height l) (get_height rl)) (get_height rr))) = true := by
  simp [hl, hrl, hrr]

/-! ### Rebalancing: the balanced case is a no-op -/

theorem insRebalance_inRange (key v : Int) (l r : Node) (h : Nat)
    (hcl : heightCacheOk l = true) (hcr : heightCacheOk r = true)
    (hd1 : realHeight l ≤ realHeight r + 1) (hd2 : realHeight r ≤ realHeight l + 1) :
    insRebalance key (update_height (.node v l r h))
      = some (.node v l r (1 + max (realHeight l) (realHeight r))) := by
  simp only [update_height, insRebalance, get_balance, get_height_node,
    hc_get_height hcl, hc_get_height hcr]
  rw [if_neg (by omega), if_neg (by omega)]

theorem delRebalance_inRange (v : Int) (l r : Node) (h : Nat)
    (hcl : heightCacheOk l = true) (hcr : heightCacheOk r = true)
    (hd1 : realHeight l ≤ realHeight r + 1) (hd2 : realHeight r ≤ realHeight l + 1) :
    delRebalance (update_height (.node v l r h))
      = some (.node v l r (1 + max (realHeight l) (realHeight r))) := by
  simp only [update_height, delRebalance, get_balance, get_height_node,
    hc_get_height hcl, hc_get_height hcr]
  rw [if_neg (by rintro ⟨hb, -⟩; omega), if_neg (by rintro ⟨hb, -⟩; omega),
    if_neg (by rintro ⟨hb, -⟩; omega), if_neg (by rintro ⟨hb, -⟩; omega)]

/-! ### Which branch of the rebalancing dispatch fires -/

theorem isBST_any_height {v : Int} {l r : Node} {h1 h2 : Nat} :
    isBST (.node v l r h1) = isBST (.node v l r h2) := rfl

theorem insRebalance_LL (key v lv : Int) (ll lr r : Node) (lh hh : Nat)
    (hb : 1 < (lh : Int) - (get_height r : Int)) (hk : key < lv) :
    insRebalance key (.node v (.node lv ll lr lh) r hh)
      = right_rotate (.node v (.node lv ll lr lh) r hh) := by
  simp only [insRebalance, get_balance, get_height_node]
  rw [if_pos hb, if_pos hk]

theorem insRebalance_LR (key v lv mv : Int) (ll ml mr r : Node) (mh lh hh : Nat)
    (hb : 1 < (lh : Int) - (get_height r : Int)) (hk : lv < key) :
    insRebalance key (.node v (.node lv ll (.node mv ml mr mh) lh) r hh)
      = right_rotate (.node v
          (.node mv (.node lv ll ml (1 + max (get_height ll) (get_height ml)))
            mr (1 + max (1 + max (get_height ll) (get_height ml)) (get_height mr)))
          r hh) := by
  simp only [insRebalance, get_balance, get_height_node]
  rw [if_pos hb, if_neg (by omega), if_pos hk]
  rfl

theorem insRebalance_RR (key v rv : Int) (l rl rr : Node) (rh hh : Nat)
    (hb : (get_height l : Int) - (rh : Int) < -1) (hk : rv < key) :
    insRebalance key (.node v l (.node rv rl rr rh) hh)
      = left_rotate (.node v l (.node rv rl rr rh) hh) := by
  simp only [insRebalance, get_balance, get_height_node]
  rw [if_neg (by omega), if_pos hb, if_pos hk]

theorem insRebalance_RL (key v rv mv : Int) (l ml mr rr : Node) (mh rh hh : Nat)
    (hb : (get_height l : Int) - (rh : Int) < -1) (hk : key < rv) :
    insRebalance key (.node v l (.node rv (.node mv ml mr mh) rr rh) hh)
      = left_rotate (.node v l
          (.node mv ml (.node rv mr rr (1 + max (get_height mr) (get_height rr)))
            (1 + max (get_height ml) (1 + max (get_height mr) (get_height rr))))
          hh) := by
  simp only [insRebalance, get_balance, get_height_node]
  rw [if_neg (by omega), if_pos hb, if_neg (by omega), if_pos hk]
  rfl

theorem delRebalance_LL (v : Int) (l r : Node) (hh : Nat)
    (hb : 1 < (get_height l : Int) - (get_height r : Int)) (hbl : 0 ≤ get_balance l) :
    delRebalance (.node v l r hh) = right_rotate (.node v l r hh) := by
  simp only [delRebalance, get_balance, get_height_node]
  rw [if_pos ⟨hb, hbl⟩]

theorem delRebalance_LR (v lv mv : Int) (ll ml mr r : Node) (mh lh hh : Nat)
    (hb : 1 < (lh : Int) - (get_height r : Int))
    (hbl : get_balance (.node lv ll (.node mv ml mr mh) lh) < 0) :
    delRebalance (.node v (.node lv ll (.node mv ml mr mh) lh) r hh)
      = right_rotate (.node v
          (.node mv (.node lv ll ml (1 + max (get_height ll) (get_height ml)))
            mr (1 + max (1 + max (get_height ll) (get_height ml)) (get_height mr)))
          r hh) := by
  simp only [delRebalance, get_balance, get_height_node]
  rw [if_neg (by rintro ⟨-, hc⟩; simp only [get_balance, get_height_node] at hbl; omega),
    if_pos ⟨hb, hbl⟩]
  rfl

theorem delRebalance_RR (v : Int) (l r : Node) (hh : Nat)
    (hb : (get_height l : Int) - (get_height r : Int) < -1) (hbr : get_balance r ≤ 0) :
    delRebalance (.node v l r hh) = left_rotate (.node v l r hh) := by
  simp only [delRebalance, get_balance, get_height_node]
  rw [if_neg (by rintro ⟨hc, -⟩; omega), if_neg (by rintro ⟨hc, -⟩; omega),
    if_pos ⟨hb, hbr⟩]

theorem delRebalance_RL (v rv mv : Int) (l ml mr rr : Node) (mh rh hh : Nat)
    (hb : (get_height l : Int) - (rh : Int) < -1)
    (hbr : 0 < get_balance (.node rv (.node mv ml mr mh) rr rh)) :
    delRebalance (.node v l (.node rv (.node mv ml mr mh) rr rh) hh)
      = left_rotate (.node v l
          (.node mv ml (.node rv mr rr (1 + max (get_height mr) (get_height rr)))
            (1 + max (get_height ml) (1 + max (get_height mr) (get_height rr))))
          hh) := by
  simp only [delRebalance, get_balance, get_height_node]
  rw [if_neg (by rintro ⟨hc, -⟩; omega), if_neg (by rintro ⟨hc, -⟩; omega),
    if_neg (by rintro ⟨-, hc⟩; simp only [get_balance, get_height_node] at hbr; omega),
    if_pos ⟨hb, hbr⟩]
  rfl

/-! ### Rebalancing an insertion that left the node two out of balance -/

theorem insRebalance_leftHeavy (key v lv : Int) (ll lr r : Node) (lh h : Nat)
    (hbst : isBST (.node v (.node lv ll lr lh) r h) = true)
    (hcl : heightCacheOk (.node lv ll lr lh) = true)
    (hcr : heightCacheOk r = true)
    (hbl : isBalanced (.node lv ll lr lh) = true)
    (hbr : isBalanced r = true)
    (himb : realHeight (.node lv ll lr lh) = realHeight r + 2)
    (hcase : (key < lv ∧ realHeight ll = realHeight lr + 1)
           ∨ (lv < key ∧ realHeight lr = realHeight ll + 1)) :
    ∃ m, insRebalance key (update_height (.node v (.node lv ll lr lh) r h)) = some m
      ∧ isBST m = true ∧ heightCacheOk m = true ∧ isBalanced m = true
      ∧ (∀ k, memB m k = true ↔ memB (.node v (.node lv ll lr lh) r h) k = true)
      ∧ realHeight m = realHeight r + 2 := by
  have hcll : heightCacheOk ll = true := by
    simp only [heightCacheOk_node, Bool.and_eq_true] at hcl; exact hcl.1.2
  have hclr : heightCacheOk lr = true := by
    simp only [heightCacheOk_node, Bool.and_eq_true] at hcl; exact hcl.2
  have hlh : lh = 1 + max (realHeight ll) (realHeight lr) := by
    simp only [heightCacheOk_node, Bool.and_eq_true, beq_iff_eq] at hcl
    rw [hcl.1.1, hc_get_height hcll, hc_get_height hclr]
  have hghr : get_height r = realHeight r := hc_get_height hcr
  have hballl : isBalanced ll = true := by
    simp only [isBalanced_node, Bool.and_eq_true] at hbl; exact hbl.1.2
  have hballr : isBalanced lr = true := by
    simp only [isBalanced_node, Bool.and_eq_true] at hbl; exact hbl.2
  simp only [realHeight_node] at himb
  simp only [update_height, get_height_node]
  obtain ⟨⟨⟨hKL, hKR⟩, hbstL⟩, hbstR⟩ :
      ((allKeys (fun k => decide (k < v)) (.node lv ll lr lh) = true
          ∧ allKeys (fun k => decide (v < k)) r = true)
        ∧ isBST (.node lv ll lr lh) = true) ∧ isBST r = true := by
    simpa only [isBST_node, Bool.and_eq_true] using hbst
  rcases hcase with ⟨hk, hd⟩ | ⟨hk, hd⟩
  · -- LL: single right rotation
    have hr2 : realHeight r = realHeight lr := by omega
    rw [insRebalance_LL key v lv ll lr r lh _ (by rw [hlh, hghr]; push_cast; omega) hk,
      right_rotate_eq]
    refine ⟨_, rfl, isBST_rotR hbst, hc_rotR hcll hclr hcr, ?_, ?_, ?_⟩
    · simp only [isBalanced_node, realHeight_node, Bool.and_eq_true, decide_eq_true_eq]
      and_intros <;> first
        | assumption
        | (push_cast; omega)
    · intro k
      exact memB_rotR v lv ll lr r _ _ lh h k
    · simp only [realHeight_node]; omega
  · -- LR: left-rotate the left child, then right-rotate the node
    obtain ⟨mv, ml, mr, mh, rfl⟩ := node_of_realHeight_pos (t := lr) (by omega)
    have hcml : heightCacheOk ml = true := by
      simp only [heightCacheOk_node, Bool.and_eq_true] at hclr; exact hclr.1.2
    have hcmr : heightCacheOk mr = true := by
      simp only [heightCacheOk_node, Bool.and_eq_true] at hclr; exact hclr.2
    have hballm : isBalanced ml = true := by
      simp only [isBalanced_node, Bool.and_eq_true] at hballr; exact hballr.1.2
    have hbalmm : isBalanced mr = true := by
      simp only [isBalanced_node, Bool.and_eq_true] at hballr; exact hballr.2
    have hmlmr : -1 ≤ (realHeight ml : Int) - realHeight mr
        ∧ (realHeight ml : Int) - realHeight mr ≤ 1 := by
      simp only [isBalanced_node, Bool.and_eq_true, decide_eq_true_eq, realHeight_node]
        at hballr
      exact ⟨hballr.1.1.1, hballr.1.1.2⟩
    simp only [realHeight_node] at hd himb
    rw [insRebalance_LR key v lv mv ll ml mr r mh lh _
        (by rw [hlh, hghr]; simp only [realHeight_node]; push_cast; omega) hk,
      right_rotate_eq]
    refine ⟨_, rfl, ?_, ?_, ?_, ?_, ?_⟩
    · have hbstMid : isBST (.node mv
          (.node lv ll ml (1 + max (get_height ll) (get_height ml))) mr 0) = true :=
        isBST_rotL hbstL
      have hKMid : allKeys (fun k => decide (k < v)) (.node mv
          (.node lv ll ml (1 + max (get_height ll) (get_height ml))) mr 0) = true :=
        allKeys_of_mem_iff (fun k => memB_rotL lv mv ll ml mr _ _ mh lh k) hKL
      refine @isBST_rotR _ _ _ _ _ _ _ 0 0 ?_
      rw [isBST_node]
      simp only [Bool.and_eq_true]
      exact ⟨⟨⟨hKMid, hKR⟩, hbstMid⟩, hbstR⟩
    · exact hc_rotR (by simp [hcll, hcml]) hcmr hcr
    · simp only [isBalanced_node, realHeight_node, get_height_node, Bool.and_eq_true,
        decide_eq_true_eq]
      obtain ⟨hm1, hm2⟩ := hmlmr
      and_intros <;> first
        | assumption
        | (push_cast; omega)
    · intro k
      simp only [memB_node, Bool.or_eq_true]
      tauto
    · simp only [realHeight_node, get_height_node]
      omega

/-! ### Rebalancing an insertion that left the node two out of balance, right side -/

theorem insRebalance_rightHeavy (key v rv : Int) (l rl rr : Node) (rh h : Nat)
    (hbst : isBST (.node v l (.node rv rl rr rh) h) = true)
    (hcl : heightCacheOk l = true)
    (hcr : heightCacheOk (.node rv rl rr rh) = true)
    (hbl : isBalanced l = true)
    (hbr : isBalanced (.node rv rl rr rh) = true)
    (himb : realHeight (.node rv rl rr rh) = realHeight l + 2)
    (hcase : (rv < key ∧ realHeight rr = realHeight rl + 1)
           ∨ (key < rv ∧ realHeight rl = realHeight rr + 1)) :
    ∃ m, insRebalance key (update_height (.node v l (.node rv rl rr rh) h)) = some m
      ∧ isBST m = true ∧ heightCacheOk m = true ∧ isBalanced m = true
      ∧ (∀ k, memB m k = true ↔ memB (.node v l (.node rv rl rr rh) h) k = true)
      ∧ realHeight m = realHeight l + 2 := by
  have hcrl : heightCacheOk rl = true := by
    simp only [heightCacheOk_node, Bool.and_eq_true] at hcr; exact hcr.1.2
  have hcrr : heightCacheOk rr = true := by
    simp only [heightCacheOk_node, Bool.and_eq_true] at hcr; exact hcr.2
  have hrh : rh = 1 + max (realHeight rl) (realHeight rr) := by
    simp only [heightCacheOk_node, Bool.and_eq_true, beq_iff_eq] at hcr
    rw [hcr.1.1, hc_get_height hcrl, hc_get_height hcrr]
  have hghl : get_height l = realHeight l := hc_get_height hcl
  have hbalrl : isBalanced rl = true := by
    simp only [isBalanced_node, Bool.and_eq_true] at hbr; exact hbr.1.2
  have hbalrr : isBalanced rr = true := by
    simp only [isBalanced_node, Bool.and_eq_true] at hbr; exact hbr.2
  simp only [realHeight_node] at himb
  simp only [update_height, get_height_node]
  obtain ⟨⟨⟨hKL, hKR⟩, hbstL⟩, hbstR⟩ :
      ((allKeys (fun k => decide (k < v)) l = true
          ∧ allKeys (fun k => decide (v < k)) (.node rv rl rr rh) = true)
        ∧ isBST l = true) ∧ isBST (.node rv rl rr rh) = true := by
    simpa only [isBST_node, Bool.and_eq_true] using hbst
  rcases hcase with ⟨hk, hd⟩ | ⟨hk, hd⟩
  · -- RR: single left rotation
    have hl2 : realHeight l = realHeight rl := by omega
    rw [insRebalance_RR key v rv l rl rr rh _ (by rw [hghl]; omega) hk,
      left_rotate_eq]
    refine ⟨_, rfl, isBST_rotL hbst, hc_rotL hcl hcrl hcrr, ?_, ?_, ?_⟩
    · simp only [isBalanced_node, realHeight_node, Bool.and_eq_true, decide_eq_true_eq]
      and_intros <;> first
        | assumption
        | (push_cast; omega)
    · intro k
      exact memB_rotL v rv l rl rr _ _ rh h k
    · simp only [realHeight_node]; omega
  · -- RL: right-rotate the right child, then left-rotate the node
    obtain ⟨mv, ml, mr, mh, rfl⟩ := node_of_realHeight_pos (t := rl) (by omega)
    have hcml : heightCacheOk ml = true := by
      simp only [heightCacheOk_node, Bool.and_eq_true] at hcrl; exact hcrl.1.2
    have hcmr : heightCacheOk mr = true := by
      simp only [heightCacheOk_node, Bool.and_eq_true] at hcrl; exact hcrl.2
    have hbalm1 : isBalanced ml = true := by
      simp only [isBalanced_node, Bool.and_eq_true] at hbalrl; exact hbalrl.1.2
    have hbalm2 : isBalanced mr = true := by
      simp only [isBalanced_node, Bool.and_eq_true] at hbalrl; exact hbalrl.2
    have hmlmr : -1 ≤ (realHeight ml : Int) - realHeight mr
        ∧ (realHeight ml : Int) - realHeight mr ≤ 1 := by
      simp only [isBalanced_node, Bool.and_eq_true, decide_eq_true_eq, realHeight_node]
        at hbalrl
      exact ⟨hbalrl.1.1.1, hbalrl.1.1.2⟩
    simp only [realHeight_node] at hd himb hrh
    rw [insRebalance_RL key v rv mv l ml mr rr mh rh _
        (by rw [hghl]; omega) hk,
      left_rotate_eq]
    refine ⟨_, rfl, ?_, ?_, ?_, ?_, ?_⟩
    · have hbstMid : isBST (.node mv ml
          (.node rv mr rr (1 + max (get_height mr) (get_height rr))) 0) = true :=
        isBST_rotR hbstR
      have hKMid : allKeys (fun k => decide (v < k)) (.node mv ml
          (.node rv mr rr (1 + max (get_height mr) (get_height rr))) 0) = true :=
        allKeys_of_mem_iff (fun k => memB_rotR rv mv ml mr rr _ _ mh rh k) hKR
      refine @isBST_rotL _ _ _ _ _ _ _ 0 0 ?_
      rw [isBST_node]
      simp only [Bool.and_eq_true]
      exact ⟨⟨⟨hKL, hKMid⟩, hbstL⟩, hbstMid⟩
    · exact hc_rotL hcl hcml (by simp [hcmr, hcrr])
    · simp only [isBalanced_node, realHeight_node, get_height_node, Bool.and_eq_true,
        decide_eq_true_eq]
      obtain ⟨hm1, hm2⟩ := hmlmr
      and_intros <;> first
        | assumption
        | (push_cast; omega)
    · intro k
      simp only [memB_node, Bool.or_eq_true]
      tauto
    · simp only [realHeight_node, get_height_node]
      omega

/-! ### Rebalancing a deletion that left the node two out of balance -/

theorem delRebalance_leftHeavy (v lv : Int) (ll lr r : Node) (lh h : Nat)
    (hbst : isBST (.node v (.node lv ll lr lh) r h) = true)
    (hcl : heightCacheOk (.node lv ll lr lh) = true)
    (hcr : heightCacheOk r = true)
    (hbl : isBalanced (.node lv ll lr lh) = true)
    (hbr : isBalanced r = true)
    (himb : realHeight (.node lv ll lr lh) = realHeight r + 2) :
    ∃ m, delRebalance (update_height (.node v (.node lv ll lr lh) r h)) = some m
      ∧ isBST m = true ∧ heightCacheOk m = true ∧ isBalanced m = true
      ∧ (∀ k, memB m k = true ↔ memB (.node v (.node lv ll lr lh) r h) k = true)
      ∧ (realHeight m = realHeight r + 3 ∨ realHeight m = realHeight r + 2) := by
  have hcll : heightCacheOk ll = true := by
    simp only [heightCacheOk_node, Bool.and_eq_true] at hcl; exact hcl.1.2
  have hclr : heightCacheOk lr = true := by
    simp only [heightCacheOk_node, Bool.and_eq_true] at hcl; exact hcl.2
  have hlh : lh = 1 + max (realHeight ll) (realHeight lr) := by
    simp only [heightCacheOk_node, Bool.and_eq_true, beq_iff_eq] at hcl
    rw [hcl.1.1, hc_get_height hcll, hc_get_height hclr]
  have hghll : get_height ll = realHeight ll := hc_get_height hcll
  have hghlr : get_height lr = realHeight lr := hc_get_height hclr
  have hghr : get_height r = realHeight r := hc_get_height hcr
  have hballl : isBalanced ll = true := by
    simp only [isBalanced_node, Bool.and_eq_true] at hbl; exact hbl.1.2
  have hballr : isBalanced lr = true := by
    simp only [isBalanced_node, Bool.and_eq_true] at hbl; exact hbl.2
  have hdll : -1 ≤ (realHeight ll : Int) - realHeight lr
      ∧ (realHeight ll : Int) - realHeight lr ≤ 1 := by
    simp only [isBalanced_node, Bool.and_eq_true, decide_eq_true_eq] at hbl
    exact ⟨hbl.1.1.1, hbl.1.1.2⟩
  simp only [realHeight_node] at himb
  simp only [update_height, get_height_node]
  obtain ⟨⟨⟨hKL, hKR⟩, hbstL⟩, hbstR⟩ :
      ((allKeys (fun k => decide (k < v)) (.node lv ll lr lh) = true
          ∧ allKeys (fun k => decide (v < k)) r = true)
        ∧ isBST (.node lv ll lr lh) = true) ∧ isBST r = true := by
    simpa only [isBST_node, Bool.and_eq_true] using hbst
  rcases le_or_lt (realHeight lr) (realHeight ll) with hcase | hcase
  · -- the left child is not right-heavy: LL, single right rotation
    rw [delRebalance_LL v (.node lv ll lr lh) r _
        (by simp only [get_height_node]; rw [hghr, hlh]; push_cast; omega)
        (by simp only [get_balance_node]; rw [hghll, hghlr]; omega),
      right_rotate_eq]
    refine ⟨_, rfl, isBST_rotR hbst, hc_rotR hcll hclr hcr, ?_, ?_, ?_⟩
    · simp only [isBalanced_node, realHeight_node, Bool.and_eq_true, decide_eq_true_eq]
      obtain ⟨hd1, hd2⟩ := hdll
      and_intros <;> first
        | assumption
        | (push_cast; omega)
    · intro k
      exact memB_rotR v lv ll lr r _ _ lh h k
    · simp only [realHeight_node]
      omega
  · -- the left child is right-heavy: LR, double rotation
    obtain ⟨mv, ml, mr, mh, rfl⟩ := node_of_realHeight_pos (t := lr) (by omega)
    have hcml : heightCacheOk ml = true := by
      simp only [heightCacheOk_node, Bool.and_eq_true] at hclr; exact hclr.1.2
    have hcmr : heightCacheOk mr = true := by
      simp only [heightCacheOk_node, Bool.and_eq_true] at hclr; exact hclr.2
    have hbalm1 : isBalanced ml = true := by
      simp only [isBalanced_node, Bool.and_eq_true] at hballr; exact hballr.1.2
    have hbalm2 : isBalanced mr = true := by
      simp only [isBalanced_node, Bool.and_eq_true] at hballr; exact hballr.2
    have hmlmr : -1 ≤ (realHeight ml : Int) - realHeight mr
        ∧ (realHeight ml : Int) - realHeight mr ≤ 1 := by
      simp only [isBalanced_node, Bool.and_eq_true, decide_eq_true_eq, realHeight_node]
        at hballr
      exact ⟨hballr.1.1.1, hballr.1.1.2⟩
    have hmh : mh = 1 + max (realHeight ml) (realHeight mr) := by
      simp only [heightCacheOk_node, Bool.and_eq_true, beq_iff_eq] at hclr
      rw [hclr.1.1, hc_get_height hcml, hc_get_height hcmr]
    simp only [realHeight_node] at hcase himb hlh hdll
    rw [delRebalance_LR v lv mv ll ml mr r mh lh _
        (by rw [hghr, hlh]; push_cast; omega)
        (by simp only [get_balance_node, get_height_node]
            rw [hghll, hmh]; omega),
      right_rotate_eq]
    refine ⟨_, rfl, ?_, ?_, ?_, ?_, ?_⟩
    · have hbstMid : isBST (.node mv
          (.node lv ll ml (1 + max (get_height ll) (get_height ml))) mr 0) = true :=
        isBST_rotL hbstL
      have hKMid : allKeys (fun k => decide (k < v)) (.node mv
          (.node lv ll ml (1 + max (get_height ll) (get_height ml))) mr 0) = true :=
        allKeys_of_mem_iff (fun k => memB_rotL lv mv ll ml mr _ _ mh lh k) hKL
      refine @isBST_rotR _ _ _ _ _ _ _ 0 0 ?_
      rw [isBST_node]
      simp only [Bool.and_eq_true]
      exact ⟨⟨⟨hKMid, hKR⟩, hbstMid⟩, hbstR⟩
    · exact hc_rotR (by simp [hcll, hcml]) hcmr hcr
    · simp only [isBalanced_node, realHeight_node, get_height_node, Bool.and_eq_true,
        decide_eq_true_eq]
      obtain ⟨hm1, hm2⟩ := hmlmr
      and_intros <;> first
        | assumption
        | (push_cast; omega)
    · intro k
      simp only [memB_node, Bool.or_eq_true]
      tauto
    · simp only [realHeight_node, get_height_node]
      omega

theorem delRebalance_rightHeavy (v rv : Int) (l rl rr : Node) (rh h : Nat)
    (hbst : isBST (.node v l (.node rv rl rr rh) h) = true)
    (hcl : heightCacheOk l = true)
    (hcr : heightCacheOk (.node rv rl rr rh) = true)
    (hbl : isBalanced l = true)
    (hbr : isBalanced (.node rv rl rr rh) = true)
    (himb : realHeight (.node rv rl rr rh) = realHeight l + 2) :
    ∃ m, delRebalance (update_height (.node v l (.node rv rl rr rh) h)) = some m
      ∧ isBST m = true ∧ heightCacheOk m = true ∧ isBalanced m = true
      ∧ (∀ k, memB m k = true ↔ memB (.node v l (.node rv rl rr rh) h) k = true)
      ∧ (realHeight m = realHeight l + 3 ∨ realHeight m = realHeight l + 2) := by
  have hcrl : heightCacheOk rl = true := by
    simp only [heightCacheOk_node, Bool.and_eq_true] at hcr; exact hcr.1.2
  have hcrr : heightCacheOk rr = true := by
    simp only [heightCacheOk_node, Bool.and_eq_true] at hcr; exact hcr.2
  have hrh : rh = 1 + max (realHeight rl) (realHeight rr) := by
    simp only [heightCacheOk_node, Bool.and_eq_true, beq_iff_eq] at hcr
    rw [hcr.1.1, hc_get_height hcrl, hc_get_height hcrr]
  have hghrl : get_height rl = realHeight rl := hc_get_height hcrl
  have hghrr : get_height rr = realHeight rr := hc_get_height hcrr
  have hghl : get_height l = realHeight l := hc_get_height hcl
  have hbalrl : isBalanced rl = true := by
    simp only [isBalanced_node, Bool.and_eq_true] at hbr; exact hbr.1.2
  have hbalrr : isBalanced rr = true := by
    simp only [isBalanced_node, Bool.and_eq_true] at hbr; exact hbr.2
  have hdrl : -1 ≤ (realHeight rl : Int) - realHeight rr
      ∧ (realHeight rl : Int) - realHeight rr ≤ 1 := by
    simp only [isBalanced_node, Bool.and_eq_true, decide_eq_true_eq] at hbr
    exact ⟨hbr.1.1.1, hbr.1.1.2⟩
  simp only [realHeight_node] at himb
  simp only [update_height, get_height_node]
  obtain ⟨⟨⟨hKL, hKR⟩, hbstL⟩, hbstR⟩ :
      ((allKeys (fun k => decide (k < v)) l = true
          ∧ allKeys (fun k => decide (v < k)) (.node rv rl rr rh) = true)
        ∧ isBST l = true) ∧ isBST (.node rv rl rr rh) = true := by
    simpa only [isBST_node, Bool.and_eq_true] using hbst
  rcases le_or_lt (realHeight rl) (realHeight rr) with hcase | hcase
  · -- the right child is not left-heavy: RR, single left rotation
    rw [delRebalance_RR v l (.node rv rl rr rh) _
        (by simp only [get_height_node]; rw [hghl, hrh]; push_cast; omega)
        (by simp only [get_balance_node]; rw [hghrl, hghrr]; omega),
      left_rotate_eq]
    refine ⟨_, rfl, isBST_rotL hbst, hc_rotL hcl hcrl hcrr, ?_, ?_, ?_⟩
    · simp only [isBalanced_node, realHeight_node, Bool.and_eq_true, decide_eq_true_eq]
      obtain ⟨hd1, hd2⟩ := hdrl
      and_intros <;> first
        | assumption
        | (push_cast; omega)
    · intro k
      exact memB_rotL v rv l rl rr _ _ rh h k
    · simp only [realHeight_node]
      omega
  · -- the right child is left-heavy: RL, double rotation
    obtain ⟨mv, ml, mr, mh, rfl⟩ := node_of_realHeight_pos (t := rl) (by omega)
    have hcml : heightCacheOk ml = true := by
      simp only [heightCacheOk_node, Bool.and_eq_true] at hcrl; exact hcrl.1.2
    have hcmr : heightCacheOk mr = true := by
      simp only [heightCacheOk_node, Bool.and_eq_true] at hcrl; exact hcrl.2
    have hbalm1 : isBalanced ml = true := by
      simp only [isBalanced_node, Bool.and_eq_true] at hbalrl; exact hbalrl.1.2
    have hbalm2 : isBalanced mr = true := by
      simp only [isBalanced_node, Bool.and_eq_true] at hbalrl; exact hbalrl.2
    have hmlmr : -1 ≤ (realHeight ml : Int) - realHeight mr
        ∧ (realHeight ml : Int) - realHeight mr ≤ 1 := by
      simp only [isBalanced_node, Bool.and_eq_true, decide_eq_true_eq, realHeight_node]
        at hbalrl
      exact ⟨hbalrl.1.1.1, hbalrl.1.1.2⟩
    have hmh : mh = 1 + max (realHeight ml) (realHeight mr) := by
      simp only [heightCacheOk_node, Bool.and_eq_true, beq_iff_eq] at hcrl
      rw [hcrl.1.1, hc_get_height hcml, hc_get_height hcmr]
    simp only [realHeight_node] at hcase himb hrh hdrl
    rw [delRebalance_RL v rv mv l ml mr rr mh rh _
        (by rw [hghl, hrh]; push_cast; omega)
        (by simp only [get_balance_node, get_height_node]
            rw [hghrr, hmh]; omega),
      left_rotate_eq]
    refine ⟨_, rfl, ?_, ?_, ?_, ?_, ?_⟩
    · have hbstMid : isBST (.node mv ml
          (.node rv mr rr (1 + max (get_height mr) (get_height rr))) 0) = true :=
        isBST_rotR hbstR
      have hKMid : allKeys (fun k => decide (v < k)) (.node mv ml
          (.node rv mr rr (1 + max (get_height mr) (get_height rr))) 0) = true :=
        allKeys_of_mem_iff (fun k => memB_rotR rv mv ml mr rr _ _ mh rh k) hKR
      refine @isBST_rotL _ _ _ _ _ _ _ 0 0 ?_
      rw [isBST_node]
      simp only [Bool.and_eq_true]
      exact ⟨⟨⟨hKL, hKMid⟩, hbstL⟩, hbstMid⟩
    · exact hc_rotL hcl hcml (by simp [hcmr, hcrr])
    · simp only [isBalanced_node, realHeight_node, get_height_node, Bool.and_eq_true,
        decide_eq_true_eq]
      obtain ⟨hm1, hm2⟩ := hmlmr
      and_intros <;> first
        | assumption
        | (push_cast; omega)
    · intro k
      simp only [memB_node, Bool.or_eq_true]
      tauto
    · simp only [realHeight_node, get_height_node]
      omega

/-- Replacing the left child by one holding the same keys plus `key` adds
exactly `key` to the keys of the node. -/
theorem memB_node_congr {l2 l : Node} {key : Int}
    (h : ∀ k, memB l2 k = true ↔ (memB l k = true ∨ k = key)) (v : Int) (r : Node)
    (h1 h2 : Nat) :
    ∀ k, memB (.node v l2 r h1) k = true ↔ (memB (.node v l r h2) k = true ∨ k = key) := by
  intro k
  simp only [memB_node, Bool.or_eq_true, h k]
  tauto

/-- Mirror image of `memB_node_congr` for the right child. -/
theorem memB_node_congrR {r2 r : Node} {key : Int}
    (h : ∀ k, memB r2 k = true ↔ (memB r k = true ∨ k = key)) (v : Int) (l : Node)
    (h1 h2 : Nat) :
    ∀ k, memB (.node v l r2 h1) k = true ↔ (memB (.node v l r h2) k = true ∨ k = key) := by
  intro k
  simp only [memB_node, Bool.or_eq_true, h k]
  tauto

/-- Key of the leftmost node: `min_value_node` returns a present node holding
the least key of a BST. -/
theorem min_value_node_spec : ∀ (r : Node), isBST r = true → r ≠ .nil →
    ∃ mv ml mr mh, min_value_node r = some (.node mv ml mr mh)
      ∧ memB r mv = true ∧ (∀ k, memB r k = true → mv ≤ k)
  | .nil, _, hne => absurd rfl hne
  | .node v .nil r h, hbst, _ => by
    obtain ⟨⟨⟨-, hKR⟩, -⟩, -⟩ :
        ((allKeys (fun k => decide (k < v)) .nil = true
            ∧ allKeys (fun k => decide (v < k)) r = true)
          ∧ isBST (.nil : Node) = true) ∧ isBST r = true := by
      simpa only [isBST_node, Bool.and_eq_true] using hbst
    refine ⟨v, .nil, r, h, rfl, by simp, ?_⟩
    intro k hk
    simp only [memB_node, memB_nil, Bool.or_eq_true, beq_iff_eq] at hk
    rcases hk with (rfl | hf) | hk
    · exact le_refl k
    · exact absurd hf (by simp)
    · have := allKeys_iff.1 hKR k hk
      simp only [decide_eq_true_eq] at this
      omega
  | .node v (.node lv ll lr lh) r h, hbst, _ => by
    obtain ⟨⟨⟨hKL, hKR⟩, hbstl⟩, -⟩ :
        ((allKeys (fun k => decide (k < v)) (.node lv ll lr lh) = true
            ∧ allKeys (fun k => decide (v < k)) r = true)
          ∧ isBST (.node lv ll lr lh) = true) ∧ isBST r = true := by
      simpa only [isBST_node, Bool.and_eq_true] using hbst
    obtain ⟨mv, ml, mr, mh, hmeq, hmem, hmin⟩ :=
      min_value_node_spec (.node lv ll lr lh) hbstl (by simp)
    have hmvltv : lv < v ∧ mv < v := by
      have h1 := allKeys_iff.1 hKL mv hmem
      have h2 := allKeys_iff.1 hKL lv (by simp [memB_node])
      simp only [decide_eq_true_eq] at h1 h2
      exact ⟨h2, h1⟩
    refine ⟨mv, ml, mr, mh, hmeq, ?_, ?_⟩
    · rw [memB_node]
      simp only [Bool.or_eq_true]
      exact Or.inl (Or.inr hmem)
    · intro k hk
      rw [memB_node] at hk
      simp only [Bool.or_eq_true, beq_iff_eq] at hk
      rcases hk with (rfl | hl) | hr
      · omega
      · exact hmin k hl
      · have := allKeys_iff.1 hKR k hr
        simp only [decide_eq_true_eq] at this
        omega

/-- Replacing the left child by one holding the same keys minus `key`, with
`key` smaller than everything else in the node, removes exactly `key`. -/
theorem memB_del_congrL {l2 l r : Node} {key v : Int} {h1 h2 : Nat}
    (hmem : ∀ k, memB l2 k = true ↔ (memB l k = true ∧ k ≠ key))
    (hkv : key < v)
    (hKR : allKeys (fun k => decide (v < k)) r = true) :
    ∀ k, memB (.node v l2 r h1) k = true ↔ (memB (.node v l r h2) k = true ∧ k ≠ key) := by
  intro k
  have hr := allKeys_iff.1 hKR k
  simp only [decide_eq_true_eq] at hr
  simp only [memB_node, Bool.or_eq_true, hmem k, beq_iff_eq]
  constructor
  · rintro ((rfl | ⟨hl, hne⟩) | hk)
    · exact ⟨Or.inl (Or.inl rfl), by omega⟩
    · exact ⟨Or.inl (Or.inr hl), hne⟩
    · exact ⟨Or.inr hk, by have := hr hk; omega⟩
  · rintro ⟨(rfl | hl) | hk, hne⟩
    · exact Or.inl (Or.inl rfl)
    · exact Or.inl (Or.inr ⟨hl, hne⟩)
    · exact Or.inr hk

/-- Mirror image of `memB_del_congrL` for deleting on the right. -/
theorem memB_del_congrR {r2 l r : Node} {key v : Int} {h1 h2 : Nat}
    (hmem : ∀ k, memB r2 k = true ↔ (memB r k = true ∧ k ≠ key))
    (hkv : v < key)
    (hKL : allKeys (fun k => decide (k < v)) l = true) :
    ∀ k, memB (.node v l r2 h1) k = true ↔ (memB (.node v l r h2) k = true ∧ k ≠ key) := by
  intro k
  have hl := allKeys_iff.1 hKL k
  simp only [decide_eq_true_eq] at hl
  simp only [memB_node, Bool.or_eq_true, hmem k, beq_iff_eq]
  constructor
  · rintro ((rfl | hk) | ⟨hrr, hne⟩)
    · exact ⟨Or.inl (Or.inl rfl), by omega⟩
    · exact ⟨Or.inl (Or.inr hk), by have := hl hk; omega⟩
    · exact ⟨Or.inr hrr, hne⟩
  · rintro ⟨(rfl | hk) | hrr, hne⟩
    · exact Or.inl (Or.inl rfl)
    · exact Or.inl (Or.inr hk)
    · exact Or.inr ⟨hrr, hne⟩

/-- Splicing out a root that has no left child leaves exactly the keys of the
right subtree. -/
theorem memB_del_root_noleft {r : Node} {v : Int} {h : Nat}
    (hKR : allKeys (fun k => decide (v < k)) r = true) :
    ∀ k, memB r k = true ↔ (memB (.node v .nil r h) k = true ∧ k ≠ v) := by
  intro k
  have hr := allKeys_iff.1 hKR k
  simp only [decide_eq_true_eq] at hr
  simp only [memB_node, memB_nil, Bool.or_eq_true, beq_iff_eq]
  constructor
  · intro hk
    exact ⟨Or.inr hk, by have := hr hk; omega⟩
  · rintro ⟨(rfl | hf) | hk, hne⟩
    · exact absurd rfl hne
    · exact absurd hf (by simp)
    · exact hk

/-- Splicing out a root that has no right child leaves exactly the keys of the
left subtree. -/
theorem memB_del_root_noright {l : Node} {v : Int} {h : Nat}
    (hKL : allKeys (fun k => decide (k < v)) l = true) :
    ∀ k, memB l k = true ↔ (memB (.node v l .nil h) k = true ∧ k ≠ v) := by
  intro k
  have hl := allKeys_iff.1 hKL k
  simp only [decide_eq_true_eq] at hl
  simp only [memB_node, memB_nil, Bool.or_eq_true, beq_iff_eq]
  constructor
  · intro hk
    exact ⟨Or.inl (Or.inr hk), by have := hl hk; omega⟩
  · rintro ⟨(rfl | hk) | hf, hne⟩
    · exact absurd rfl hne
    · exact hk
    · exact absurd hf (by simp)

/-- The two-child splice: overwrite the root key with the in-order successor
`mv` and delete `mv` from the right subtree; exactly the old root key
disappears. -/
theorem memB_del_twochild {l r r2 : Node} {v mv : Int} {h1 h2 : Nat}
    (hKL : allKeys (fun k => decide (k < v)) l = true)
    (hKR : allKeys (fun k => decide (v < k)) r = true)
    (hmemr : memB r mv = true)
    (hmem2 : ∀ k, memB r2 k = true ↔ (memB r k = true ∧ k ≠ mv)) :
    ∀ k, memB (.node mv l r2 h1) k = true
      ↔ (memB (.node v l r h2) k = true ∧ k ≠ v) := by
  intro k
  have hlk := allKeys_iff.1 hKL k
  have hrk := allKeys_iff.1 hKR k
  have hrmv := allKeys_iff.1 hKR mv hmemr
  simp only [decide_eq_true_eq] at hlk hrk hrmv
  simp only [memB_node, Bool.or_eq_true, beq_iff_eq, hmem2 k]
  constructor
  · rintro ((rfl | hl) | ⟨hrr, hne⟩)
    · exact ⟨Or.inr hmemr, by omega⟩
    · exact ⟨Or.inl (Or.inr hl), by have := hlk hl; omega⟩
    · exact ⟨Or.inr hrr, by have := hrk hrr; omega⟩
  · rintro ⟨(rfl | hl) | hrr, hne⟩
    · exact absurd rfl hne
    · exact Or.inl (Or.inr hl)
    · by_cases hkm : k = mv
      · exact Or.inl (Or.inl hkm)
      · exact Or.inr ⟨hrr, hkm⟩

/-! ### Main lemma: insertion keeps all three invariants -/

theorem insertT_main (t : Node) (key : Int) :
    isBST t = true → heightCacheOk t = true → isBalanced t = true →
    ∃ t2, insertT t key = some t2
      ∧ isBST t2 = true ∧ heightCacheOk t2 = true ∧ isBalanced t2 = true
      ∧ (∀ k, memB t2 k = true ↔ (memB t k = true ∨ k = key))
      ∧ (realHeight t2 = realHeight t ∨ realHeight t2 = realHeight t + 1)
      ∧ (realHeight t2 = realHeight t + 1 → 2 ≤ realHeight t2 →
          ∃ v2 l2 r2 h2, t2 = .node v2 l2 r2 h2
            ∧ ((key < v2 ∧ realHeight l2 = realHeight r2 + 1)
              ∨ (v2 < key ∧ realHeight r2 = realHeight l2 + 1))) := by
  induction t with
  | nil =>
    intro _ _ _
    refine ⟨.node key .nil .nil 1, rfl, by simp [isBST, allKeys], by simp, by simp, ?_, ?_, ?_⟩
    · intro k; simp [beq_iff_eq]
    · simp
    · intro _ hge
      simp only [realHeight_node, realHeight_nil] at hge
      omega
  | node v l r h ihl ihr =>
    intro hbst hhc hbal
    obtain ⟨⟨⟨hKL, hKR⟩, hbstl⟩, hbstr⟩ :
        ((allKeys (fun k => decide (k < v)) l = true
            ∧ allKeys (fun k => decide (v < k)) r = true)
          ∧ isBST l = true) ∧ isBST r = true := by
      simpa only [isBST_node, Bool.and_eq_true] using hbst
    have hcl : heightCacheOk l = true := by
      simp only [heightCacheOk_node, Bool.and_eq_true] at hhc; exact hhc.1.2
    have hcr : heightCacheOk r = true := by
      simp only [heightCacheOk_node, Bool.and_eq_true] at hhc; exact hhc.2
    have hball : isBalanced l = true := by
      simp only [isBalanced_node, Bool.and_eq_true] at hbal; exact hbal.1.2
    have hbalr : isBalanced r = true := by
      simp only [isBalanced_node, Bool.and_eq_true] at hbal; exact hbal.2
    have hrange : -1 ≤ (realHeight l : Int) - realHeight r
        ∧ (realHeight l : Int) - realHeight r ≤ 1 := by
      simp only [isBalanced_node, Bool.and_eq_true, decide_eq_true_eq] at hbal
      exact ⟨hbal.1.1.1, hbal.1.1.2⟩
    rcases lt_trichotomy key v with hkv | hkv | hkv
    · -- descend left
      obtain ⟨l2, heq, hbst2, hc2, hbal2, hmem2, hht2, hgrow2⟩ := ihl hbstl hcl hball
      clear ihl ihr
      have hstep : insertT (.node v l r h) key
          = insRebalance key (update_height (.node v l2 r h)) := by
        simp only [insertT, heq]
        rw [if_pos hkv]
      rw [hstep]
      have hKL2 : allKeys (fun k => decide (k < v)) l2 = true := by
        refine allKeys_iff.2 fun k hk => ?_
        rcases (hmem2 k).1 hk with hmem | rfl
        · exact allKeys_iff.1 hKL k hmem
        · simpa using hkv
      rcases le_or_lt (realHeight l2) (realHeight r + 1) with hle | hgt
      · -- still within the AVL bound: no rotation
        clear hgrow2
        rw [insRebalance_inRange key v l2 r h hc2 hcr hle (by omega)]
        refine ⟨_, rfl, ?_, ?_, ?_, ?_, ?_, ?_⟩
        · simp only [isBST_node, Bool.and_eq_true]
          exact ⟨⟨⟨hKL2, hKR⟩, hbst2⟩, hbstr⟩
        · simp [heightCacheOk_node, hc_get_height hc2, hc_get_height hcr, hc2, hcr]
        · simp only [isBalanced_node, Bool.and_eq_true, decide_eq_true_eq, realHeight_node]
          and_intros <;> first
            | assumption
            | omega
        · exact memB_node_congr hmem2 v r _ h
        · simp only [realHeight_node]
          omega
        · intro hgrew hge
          simp only [realHeight_node] at hgrew hge
          have hb2 : realHeight l2 = realHeight r + 1 := by omega
          exact ⟨v, l2, r, _, rfl, Or.inl ⟨hkv, hb2⟩⟩
      · -- the left subtree is now two higher: rotation case
        have himb : realHeight l2 = realHeight r + 2 := by omega
        have hgrew2 : realHeight l2 = realHeight l + 1 := by omega
        obtain ⟨lv, ll2, lr2, lh2, heql2, hcase0⟩ := hgrow2 hgrew2 (by omega)
        clear hgrow2
        subst heql2
        obtain ⟨m, hmeq, hmbst, hmhc, hmbal, hmmem, hmht⟩ :=
          insRebalance_leftHeavy key v lv ll2 lr2 r lh2 h
            (by rw [isBST_node]
                simp only [Bool.and_eq_true]
                exact ⟨⟨⟨hKL2, hKR⟩, hbst2⟩, hbstr⟩)
            hc2 hcr hbal2 hbalr himb hcase0
        refine ⟨m, hmeq, hmbst, hmhc, hmbal, ?_, ?_, ?_⟩
        · exact fun k => (hmmem k).trans (memB_node_congr hmem2 v r h h k)
        · simp only [realHeight_node] at himb hgrew2 ⊢
          omega
        · intro hgrew _
          exfalso
          simp only [realHeight_node] at himb hgrew2 hgrew
          omega
    · -- duplicate key: the tree is returned unchanged
      have hstep : insertT (.node v l r h) key = some (.node v l r h) := by
        simp only [insertT]
        rw [if_neg (by omega), if_neg (by omega)]
      rw [hstep]
      refine ⟨_, rfl, hbst, hhc, hbal, ?_, Or.inl rfl, ?_⟩
      · intro k
        subst hkv
        constructor
        · exact Or.inl
        · rintro (hk | rfl)
          · exact hk
          · simp only [memB_node, Bool.or_eq_true, beq_iff_eq]
            exact Or.inl (Or.inl trivial)
      · intro hgrew _
        exfalso
        omega
    · -- descend right
      obtain ⟨r2, heq, hbst2, hc2, hbal2, hmem2, hht2, hgrow2⟩ := ihr hbstr hcr hbalr
      clear ihl ihr
      have hstep : insertT (.node v l r h) key
          = insRebalance key (update_height (.node v l r2 h)) := by
        simp only [insertT, heq]
        rw [if_neg (by omega), if_pos hkv]
      rw [hstep]
      have hKR2 : allKeys (fun k => decide (v < k)) r2 = true := by
        refine allKeys_iff.2 fun k hk => ?_
        rcases (hmem2 k).1 hk with hmem | rfl
        · exact allKeys_iff.1 hKR k hmem
        · simpa using hkv
      rcases le_or_lt (realHeight r2) (realHeight l + 1) with hle | hgt
      · -- still within the AVL bound: no rotation
        clear hgrow2
        rw [insRebalance_inRange key v l r2 h hcl hc2 (by omega) hle]
        refine ⟨_, rfl, ?_, ?_, ?_, ?_, ?_, ?_⟩
        · simp only [isBST_node, Bool.and_eq_true]
          exact ⟨⟨⟨hKL, hKR2⟩, hbstl⟩, hbst2⟩
        · simp [heightCacheOk_node, hc_get_height hcl, hc_get_height hc2, hcl, hc2]
        · simp only [isBalanced_node, Bool.and_eq_true, decide_eq_true_eq, realHeight_node]
          and_intros <;> first
            | assumption
            | omega
        · exact memB_node_congrR hmem2 v l _ h
        · simp only [realHeight_node]
          omega
        · intro hgrew hge
          simp only [realHeight_node] at hgrew hge
          have hb2 : realHeight r2 = realHeight l + 1 := by omega
          exact ⟨v, l, r2, _, rfl, Or.inr ⟨hkv, hb2⟩⟩
      · -- the right subtree is now two higher: rotation case
        have himb : realHeight r2 = realHeight l + 2 := by omega
        have hgrew2 : realHeight r2 = realHeight r + 1 := by omega
        obtain ⟨rv, rl2, rr2, rh2, heqr2, hcase0⟩ := hgrow2 hgrew2 (by omega)
        clear hgrow2
        subst heqr2
        obtain ⟨m, hmeq, hmbst, hmhc, hmbal, hmmem, hmht⟩ :=
          insRebalance_rightHeavy key v rv l rl2 rr2 rh2 h
            (by rw [isBST_node]
                simp only [Bool.and_eq_true]
                exact ⟨⟨⟨hKL, hKR2⟩, hbstl⟩, hbst2⟩)
            hcl hc2 hball hbal2 himb
            (by rcases hcase0 with ⟨h1, h2⟩ | ⟨h1, h2⟩
                · exact Or.inr ⟨h1, h2⟩
                · exact Or.inl ⟨h1, h2⟩)
        refine ⟨m, hmeq, hmbst, hmhc, hmbal, ?_, ?_, ?_⟩
        · exact fun k => (hmmem k).trans (memB_node_congrR hmem2 v l h h k)
        · simp only [realHeight_node] at himb hgrew2 ⊢
          omega
        · intro hgrew _
          exfalso
          simp only [realHeight_node] at himb hgrew2 hgrew
          omega

/-! ### Main lemma: deletion keeps all three invariants -/

theorem deleteT_main (t : Node) : ∀ (key : Int),
    isBST t = true → heightCacheOk t = true → isBalanced t = true →
    ∃ t2, deleteT t key = some t2
      ∧ isBST t2 = true ∧ heightCacheOk t2 = true ∧ isBalanced t2 = true
      ∧ (∀ k, memB t2 k = true ↔ (memB t k = true ∧ k ≠ key))
      ∧ (realHeight t2 = realHeight t ∨ realHeight t2 + 1 = realHeight t) := by
  induction t with
  | nil =>
    intro key _ _ _
    exact ⟨.nil, rfl, rfl, rfl, rfl, fun k => by simp, Or.inl rfl⟩
  | node v l r h ihl ihr =>
    intro key hbst hhc hbal
    obtain ⟨⟨⟨hKL, hKR⟩, hbstl⟩, hbstr⟩ :
        ((allKeys (fun k => decide (k < v)) l = true
            ∧ allKeys (fun k => decide (v < k)) r = true)
          ∧ isBST l = true) ∧ isBST r = true := by
      simpa only [isBST_node, Bool.and_eq_true] using hbst
    have hcl : heightCacheOk l = true := by
      simp only [heightCacheOk_node, Bool.and_eq_true] at hhc; exact hhc.1.2
    have hcr : heightCacheOk r = true := by
      simp only [heightCacheOk_node, Bool.and_eq_true] at hhc; exact hhc.2
    have hball : isBalanced l = true := by
      simp only [isBalanced_node, Bool.and_eq_true] at hbal; exact hbal.1.2
    have hbalr : isBalanced r = true := by
      simp only [isBalanced_node, Bool.and_eq_true] at hbal; exact hbal.2
    have hrange : -1 ≤ (realHeight l : Int) - realHeight r
        ∧ (realHeight l : Int) - realHeight r ≤ 1 := by
      simp only [isBalanced_node, Bool.and_eq_true, decide_eq_true_eq] at hbal
      exact ⟨hbal.1.1.1, hbal.1.1.2⟩
    rcases lt_trichotomy key v with hkv | hkv | hkv
    · -- descend left
      obtain ⟨l2, heq, hbst2, hc2, hbal2, hmem2, hht2⟩ := ihl key hbstl hcl hball
      clear ihl ihr
      have hstep : deleteT (.node v l r h) key
          = delRebalance (update_height (.node v l2 r h)) := by
        simp only [deleteT, heq]
        rw [if_pos hkv]
      rw [hstep]
      have hKL2 : allKeys (fun k => decide (k < v)) l2 = true :=
        allKeys_iff.2 fun k hk => allKeys_iff.1 hKL k ((hmem2 k).1 hk).1
      rcases le_or_lt (realHeight r) (realHeight l2 + 1) with hle | hgt
      · -- still within the AVL bound: no rotation
        rw [delRebalance_inRange v l2 r h hc2 hcr (by omega) hle]
        refine ⟨_, rfl, ?_, ?_, ?_, ?_, ?_⟩
        · simp only [isBST_node, Bool.and_eq_true]
          exact ⟨⟨⟨hKL2, hKR⟩, hbst2⟩, hbstr⟩
        · simp [heightCacheOk_node, hc_get_height hc2, hc_get_height hcr, hc2, hcr]
        · simp only [isBalanced_node, Bool.and_eq_true, decide_eq_true_eq, realHeight_node]
          and_intros <;> first
            | assumption
            | omega
        · exact memB_del_congrL hmem2 hkv hKR
        · simp only [realHeight_node]
          omega
      · -- right side is now two higher: rotation case
        have himb : realHeight r = realHeight l2 + 2 := by omega
        obtain ⟨rv, rl, rr, rh, rfl⟩ := node_of_realHeight_pos (t := r) (by omega)
        obtain ⟨m, hmeq, hmbst, hmhc, hmbal, hmmem, hmht⟩ :=
          delRebalance_rightHeavy v rv l2 rl rr rh h
            (by rw [isBST_node]
                simp only [Bool.and_eq_true]
                exact ⟨⟨⟨hKL2, hKR⟩, hbst2⟩, hbstr⟩)
            hc2 hcr hbal2 hbalr himb
        refine ⟨m, hmeq, hmbst, hmhc, hmbal, ?_, ?_⟩
        · exact fun k => (hmmem k).trans (memB_del_congrL hmem2 hkv hKR k)
        · simp only [realHeight_node] at himb hmht ⊢
          omega
    · -- the key is at this node: splice
      subst hkv
      clear hbst hhc hbal
      cases l with
      | nil =>
        -- no left child: replace by the right child
        have hstep : deleteT (.node key .nil r h) key = some r := by
          simp only [deleteT]
          rw [if_neg (by omega), if_neg (by omega)]
        rw [hstep]
        refine ⟨r, rfl, hbstr, hcr, hbalr, memB_del_root_noleft hKR, ?_⟩
        simp only [realHeight_node, realHeight_nil]
        omega
      | node lv ll lr lh =>
        cases r with
        | nil =>
          -- no right child: replace by the left child
          have hstep : deleteT (.node key (.node lv ll lr lh) .nil h) key
              = some (.node lv ll lr lh) := by
            simp only [deleteT]
            rw [if_neg (by omega), if_neg (by omega)]
          rw [hstep]
          refine ⟨_, rfl, hbstl, hcl, hball, memB_del_root_noright hKL, ?_⟩
          simp only [realHeight_node, realHeight_nil]
          omega
        | node rv rl rr rh =>
          -- two children: in-order successor splice
          obtain ⟨mv, ml, mr, mh, hmin_eq, hmv_mem, hmv_min⟩ :=
            min_value_node_spec (.node rv rl rr rh) hbstr (by simp)
          obtain ⟨r2, heqr, hbst2, hc2, hbal2, hmem2, hht2⟩ := ihr mv hbstr hcr hbalr
          clear ihl ihr
          have hstep : deleteT (.node key (.node lv ll lr lh) (.node rv rl rr rh) h) key
              = delRebalance (update_height (.node mv (.node lv ll lr lh) r2 h)) := by
            simp only [deleteT, hmin_eq]
            rw [if_neg (by omega), if_neg (by omega)]
            split
            · next heq2 => exact absurd (heqr.symm.trans heq2) (by simp)
            · next r3 heq2 =>
              have hr23 : r2 = r3 := by
                have := heqr.symm.trans heq2
                simpa using this
              rw [← hr23]
          rw [hstep]
          have hvmv : key < mv := by
            have := allKeys_iff.1 hKR mv hmv_mem
            simpa using this
          have hKL2 : allKeys (fun k => decide (k < mv)) (.node lv ll lr lh) = true :=
            allKeys_mono (fun k hk => by simp only [decide_eq_true_eq] at hk ⊢; omega) hKL
          have hKR2 : allKeys (fun k => decide (mv < k)) r2 = true := by
            refine allKeys_iff.2 fun k hk => ?_
            obtain ⟨hkr, hkne⟩ := (hmem2 k).1 hk
            have := hmv_min k hkr
            simp only [decide_eq_true_eq]
            omega
          have hr2le : realHeight r2 = realHeight (.node rv rl rr rh)
              ∨ realHeight r2 + 1 = realHeight (.node rv rl rr rh) := hht2
          rcases le_or_lt (realHeight (.node lv ll lr lh)) (realHeight r2 + 1) with hle | hgt
          · -- still within the AVL bound: no rotation
            rw [delRebalance_inRange mv (.node lv ll lr lh) r2 h hcl hc2 hle
              (by simp only [realHeight_node] at hrange hr2le ⊢; omega)]
            refine ⟨_, rfl, ?_, ?_, ?_, ?_, ?_⟩
            · rw [isBST_node]
              simp only [Bool.and_eq_true]
              exact ⟨⟨⟨hKL2, hKR2⟩, hbstl⟩, hbst2⟩
            · simp [heightCacheOk_node, hc_get_height hcl, hc_get_height hc2, hcl, hc2]
            · rw [isBalanced_node]
              simp only [Bool.and_eq_true, decide_eq_true_eq]
              refine ⟨⟨⟨?_, ?_⟩, hball⟩, hbal2⟩ <;>
                (simp only [realHeight_node] at hle hr2le hrange ⊢; omega)
            · exact memB_del_twochild hKL hKR hmv_mem hmem2
            · simp only [realHeight_node] at hr2le hrange ⊢
              omega
          · -- left side is two higher than the shrunk right: rotation case
            have himb : realHeight (.node lv ll lr lh) = realHeight r2 + 2 := by
              simp only [realHeight_node] at hrange hr2le hgt ⊢
              omega
            obtain ⟨m, hmeq, hmbst, hmhc, hmbal, hmmem, hmht⟩ :=
              delRebalance_leftHeavy mv lv ll lr r2 lh h
                (by rw [isBST_node]
                    simp only [Bool.and_eq_true]
                    exact ⟨⟨⟨hKL2, hKR2⟩, hbstl⟩, hbst2⟩)
                hcl hc2 hball hbal2 himb
            refine ⟨m, hmeq, hmbst, hmhc, hmbal, ?_, ?_⟩
            · exact fun k => (hmmem k).trans (memB_del_twochild hKL hKR hmv_mem hmem2 k)
            · simp only [realHeight_node] at himb hmht hr2le hrange ⊢
              omega
    · -- descend right
      obtain ⟨r2, heq, hbst2, hc2, hbal2, hmem2, hht2⟩ := ihr key hbstr hcr hbalr
      clear ihl ihr
      have hstep : deleteT (.node v l r h) key
          = delRebalance (update_height (.node v l r2 h)) := by
        simp only [deleteT, heq]
        rw [if_neg (by omega), if_pos hkv]
      rw [hstep]
      have hKR2 : allKeys (fun k => decide (v < k)) r2 = true :=
        allKeys_iff.2 fun k hk => allKeys_iff.1 hKR k ((hmem2 k).1 hk).1
      rcases le_or_lt (realHeight l) (realHeight r2 + 1) with hle | hgt
      · -- still within the AVL bound: no rotation
        rw [delRebalance_inRange v l r2 h hcl hc2 hle (by omega)]
        refine ⟨_, rfl, ?_, ?_, ?_, ?_, ?_⟩
        · simp only [isBST_node, Bool.and_eq_true]
          exact ⟨⟨⟨hKL, hKR2⟩, hbstl⟩, hbst2⟩
        · simp [heightCacheOk_node, hc_get_height hcl, hc_get_height hc2, hcl, hc2]
        · simp only [isBalanced_node, Bool.and_eq_true, decide_eq_true_eq, realHeight_node]
          and_intros <;> first
            | assumption
            | omega
        · exact memB_del_congrR hmem2 hkv hKL
        · simp only [realHeight_node]
          omega
      · -- left side is now two higher: rotation case
        have himb : realHeight l = realHeight r2 + 2 := by omega
        obtain ⟨lv, ll, lr, lh, rfl⟩ := node_of_realHeight_pos (t := l) (by omega)
        obtain ⟨m, hmeq, hmbst, hmhc, hmbal, hmmem, hmht⟩ :=
          delRebalance_leftHeavy v lv ll lr r2 lh h
            (by rw [isBST_node]
                simp only [Bool.and_eq_true]
                exact ⟨⟨⟨hKL, hKR2⟩, hbstl⟩, hbst2⟩)
            hcl hc2 hball hbal2 himb
        refine ⟨m, hmeq, hmbst, hmhc, hmbal, ?_, ?_⟩
        · exact fun k => (hmmem k).trans (memB_del_congrR hmem2 hkv hKL k)
        · simp only [realHeight_node] at himb hmht ⊢
          omega

/-! ### The three invariants hold for every reachable tree -/

theorem wfB_insert {t t2 : Node} {key : Int} (hwf : wfB t = true)
    (heq : insertT t key = some t2) : wfB t2 = true := by
  simp only [wfB, Bool.and_eq_true] at hwf ⊢
  obtain ⟨t3, heq3, h1, h2, h3, -, -, -⟩ := insertT_main t key hwf.1.1 hwf.1.2 hwf.2
  rw [heq] at heq3
  injection heq3 with hh
  subst hh
  exact ⟨⟨h1, h2⟩, h3⟩

theorem wfB_delete {t t2 : Node} {key : Int} (hwf : wfB t = true)
    (heq : deleteT t key = some t2) : wfB t2 = true := by
  simp only [wfB, Bool.and_eq_true] at hwf ⊢
  obtain ⟨t3, heq3, h1, h2, h3, -, -⟩ := deleteT_main t key hwf.1.1 hwf.1.2 hwf.2
  rw [heq] at heq3
  injection heq3 with hh
  subst hh
  exact ⟨⟨h1, h2⟩, h3⟩

theorem reachable_wf {t : Node} (hr : Reachable t) : wfB t = true := by
  induction hr with
  | empty => rfl
  | ins _ heq ih => exact wfB_insert ih heq
  | del _ heq ih => exact wfB_delete ih heq

/-! ### In-order traversal -/

theorem mem_inorder {t : Node} {k : Int} : k ∈ inorder t ↔ memB t k = true := by
  induction t with
  | nil => simp
  | node v l r h ihl ihr =>
    simp only [inorder_node, memB_node, List.mem_append, List.mem_cons, Bool.or_eq_true,
      beq_iff_eq, ihl, ihr]
    tauto

theorem isBST_iff_pairwise {t : Node} :
    isBST t = true ↔ List.Pairwise (· < ·) (inorder t) := by
  induction t with
  | nil => simp
  | node v l r h ihl ihr =>
    simp only [isBST_node, inorder_node, Bool.and_eq_true, List.pairwise_append,
      List.pairwise_cons, ihl, ihr, allKeys_iff]
    constructor
    · rintro ⟨⟨⟨hKL, hKR⟩, hl⟩, hr⟩
      refine ⟨hl, ⟨?_, hr⟩, ?_⟩
      · intro b hb
        have := hKR b (mem_inorder.1 hb)
        simpa using this
      · intro a ha b hb
        have h1 := hKL a (mem_inorder.1 ha)
        simp only [decide_eq_true_eq] at h1
        rcases List.mem_cons.mp hb with rfl | hb
        · exact h1
        · have h2 := hKR b (mem_inorder.1 hb)
          simp only [decide_eq_true_eq] at h2
          omega
    · rintro ⟨hl, ⟨hvr, hr⟩, hcross⟩
      refine ⟨⟨⟨?_, ?_⟩, hl⟩, hr⟩
      · intro a ha
        have := hcross a (mem_inorder.2 ha) v (List.mem_cons_self v _)
        simpa using this
      · intro b hb
        have := hvr b (mem_inorder.2 hb)
        simpa using this

/-- `min_value_node` succeeds on every present node. -/
theorem min_value_node_isSome : ∀ (t : Node), t ≠ .nil → (min_value_node t).isSome = true
  | .nil, hne => absurd rfl hne
  | .node v .nil r h, _ => rfl
  | .node _ (.node lv ll lr lh) _ _, _ =>
    min_value_node_isSome (.node lv ll lr lh) (by simp)

/-! ### Visualization layer (`avl_tree/visualize.py`)

Python emits a Graphviz `Source`: one coloured, labelled vertex per present
node (named by `id(node)`, a memory address) and an edge to each present
child.  Up to those addresses that is exactly the tree of labels modelled by
`Gv` below. -/

inductive Gv where
  | nothing : Gv
  | emptyGraph : Gv
  | vertex (label : String) (color : String) (left : Gv) (right : Gv) : Gv
deriving DecidableEq

/-- `_node_label`: the Python source writes the two characters `\n` (a DOT
escape) between the value and the parenthesised height/balance. -/
def node_label (value : Int) (height : Nat) (balance : Int) : String :=
  toString value ++ "\\n(h=" ++ toString height ++ ", b=" ++ toString balance ++ ")"

/-- `_add_nodes_edges`: `balance` is recomputed from the cached child heights,
colour is red iff `|balance| > 1`, and the function recurses into the present
children. -/
def add_nodes_edges : Node → Gv
  | .nil => .nothing
  | .node v l r h =>
    .vertex (node_label v h ((get_height l : Int) - (get_height r : Int)))
      (if 1 < ((get_height l : Int) - (get_height r : Int)).natAbs then "red" else "green")
      (add_nodes_edges l) (add_nodes_edges r)

/-- `tree_to_graphviz(root, highlight_node)`: a lone "Empty" vertex for an
absent root, else the rendered tree.  The `highlight_node` parameter is
accepted and never read, exactly as in `visualize.py`. -/
def tree_to_graphviz (root : Node) (highlight_node : Option Int) : Gv :=
  match root with
  | .nil => .emptyGraph
  | t => add_nodes_edges t

/-- `copy.deepcopy` of a tree: a structural copy. -/
def deepcopy : Node → Node
  | .nil => .nil
  | .node v l r h => .node v (deepcopy l) (deepcopy r) h

theorem deepcopy_eq (t : Node) : deepcopy t = t := by
  induction t with
  | nil => rfl
  | node v l r h ihl ihr => simp [deepcopy, ihl, ihr]

/-- One recorded step, the dict `{"desc": ..., "graph": ...}` built by
`AVLTree._snapshot`. -/
structure StepRec where
  desc : String
  graph : Gv
deriving DecidableEq

/-- `AVLTree._snapshot(desc, node)`: deep-copies the tree reachable from
`self.root` at this instant (`view`) and renders it; `focus` is
`node.value if node else None`. -/
def snapshot (view : Node) (desc : String) (focus : Option Int) : StepRec :=
  ⟨desc, tree_to_graphviz (deepcopy view) focus⟩

/-- `value` field of a present node (Python reads `.value` only on nodes). -/
def value! : Node → Int
  | .nil => 0
  | .node v _ _ _ => v

def leftChild : Node → Node
  | .nil => .nil
  | .node _ l _ _ => l

def rightChild : Node → Node
  | .nil => .nil
  | .node _ _ r _ => r

/-! ### Instrumented operations

The recursion of `_insert`/`_delete` mutates nodes in place while
`self.root` is only reassigned at the very end, so the deep copy taken by
`_snapshot` sees: the ancestors of the current node in their original state
(their heights and child pointers are updated only on the unwind, after the
recursive call returns), the current node object in its current in-place
state, and — crucially — after `node = rotate(node)` the parent still
references the demoted pre-rotation object, not the rotation's new root.
`plug` reconstructs that view: it plugs the current in-place state of this
level's original node object into the original ancestors. -/

/-- Log/step-producing rebalancing tail of `_insert` (avl.py lines 99-133). -/
def insRebalanceFull (plug : Node → Node) (key : Int) (n : Node) :
    Option (Node × List String × List StepRec) :=
  match n with
  | .nil => none
  | .node v l r h =>
    let b := get_balance (.node v l r h)
    if 1 < b then
      match l with
      | .nil => none
      | .node lv ll lr lh =>
        if key < lv then
          match right_rotate (.node v (.node lv ll lr lh) r h) with
          | none => none
          | some x =>
            some (x,
              ["Right Rotation (LL) at node " ++ toString v],
              [snapshot (plug (.node v (.node lv ll lr lh) r h))
                 ("LL case before rotation at " ++ toString v) (some v),
               snapshot (plug (.node v lr r (1 + max (get_height lr) (get_height r))))
                 ("After Right Rotation at " ++ toString (value! x)) (some (value! x))])
        else if lv < key then
          match left_rotate (.node lv ll lr lh) with
          | none => none
          | some l2 =>
            match right_rotate (.node v l2 r h) with
            | none => none
            | some x =>
              some (x,
                ["Left-Right Rotation (LR) at node " ++ toString v],
                [snapshot (plug (.node v (.node lv ll lr lh) r h))
                   ("LR case before rotations at " ++ toString v) (some v),
                 snapshot (plug (.node v l2 r h))
                   ("After left-rotation of left child of " ++ toString v) (some v),
                 snapshot (plug (.node v (rightChild l2) r
                     (1 + max (get_height (rightChild l2)) (get_height r))))
                   ("After right-rotation at " ++ toString (value! x)) (some (value! x))])
        else some (.node v l r h, [], [])
    else if b < -1 then
      match r with
      | .nil => none
      | .node rv rl rr rh =>
        if rv < key then
          match left_rotate (.node v l (.node rv rl rr rh) h) with
          | none => none
          | some x =>
            some (x,
              ["Left Rotation (RR) at node " ++ toString v],
              [snapshot (plug (.node v l (.node rv rl rr rh) h))
                 ("RR case before rotation at " ++ toString v) (some v),
               snapshot (plug (.node v l rl (1 + max (get_height l) (get_height rl))))
                 ("After Left Rotation at " ++ toString (value! x)) (some (value! x))])
        else if key < rv then
          match right_rotate (.node rv rl rr rh) with
          | none => none
          | some r2 =>
            match left_rotate (.node v l r2 h) with
            | none => none
            | some x =>
              some (x,
                ["Right-Left Rotation (RL) at node " ++ toString v],
                [snapshot (plug (.node v l (.node rv rl rr rh) h))
                   ("RL case before rotations at " ++ toString v) (some v),
                 snapshot (plug (.node v l r2 h))
                   ("After right-rotation of right child of " ++ toString v) (some v),
                 snapshot (plug (.node v l (leftChild r2)
                     (1 + max (get_height l) (get_height (leftChild r2)))))
                   ("After left-rotation at " ++ toString (value! x)) (some (value! x))])
        else some (.node v l r h, [], [])
    else some (.node v l r h, [], [])

/-- Log/step-producing `_insert` (avl.py lines 80-135). -/
def insertAux (plug : Node → Node) (node : Node) (key : Int) :
    Option (Node × List String × List StepRec) :=
  match node with
  | .nil =>
    some (.node key .nil .nil 1,
      ["Created node " ++ toString key],
      [snapshot (plug .nil) ("Inserted " ++ toString key) none])
  | .node v l r h =>
    if key < v then
      match insertAux (fun t => plug (.node v t r h)) l key with
      | none => none
      | some (l2, logs1, steps1) =>
        let n1 := update_height (.node v l2 r h)
        match insRebalanceFull plug key n1 with
        | none => none
        | some (n2, logs2, steps2) =>
          some (n2,
            logs1 ++ ["At node " ++ toString v ++ ": height=" ++ toString (get_height n1)
              ++ ", balance=" ++ toString (get_balance n1)] ++ logs2,
            steps1 ++ steps2)
    else if v < key then
      match insertAux (fun t => plug (.node v l t h)) r key with
      | none => none
      | some (r2, logs1, steps1) =>
        let n1 := update_height (.node v l r2 h)
        match insRebalanceFull plug key n1 with
        | none => none
        | some (n2, logs2, steps2) =>
          some (n2,
            logs1 ++ ["At node " ++ toString v ++ ": height=" ++ toString (get_height n1)
              ++ ", balance=" ++ toString (get_balance n1)] ++ logs2,
            steps1 ++ steps2)
    else
      some (.node v l r h,
        ["Key " ++ toString key ++ " already present; ignoring."], [])

/-- Public `AVLTree.insert`: logs "Insert k" first, then runs `_insert` from
`self.root` (so the top-level `plug` is the identity). -/
def insertFull (root : Node) (key : Int) :
    Option (Node × List String × List StepRec) :=
  match insertAux id root key with
  | none => none
  | some (r2, logs, steps) => some (r2, ("Insert " ++ toString key) :: logs, steps)

/-- Log/step-producing rebalancing tail of `_delete` (avl.py lines 189-231). -/
def delRebalanceFull (plug : Node → Node) (n : Node) :
    Option (Node × List String × List StepRec) :=
  match n with
  | .nil => none
  | .node v l r h =>
    let b := get_balance (.node v l r h)
    if 1 < b ∧ 0 ≤ get_balance l then
      match right_rotate (.node v l r h) with
      | none => none
      | some x =>
        some (x,
          ["Right Rotation (LL) at node " ++ toString v],
          [snapshot (plug (.node v l r h))
             ("LL rebalance before at " ++ toString v) (some v),
           snapshot (plug (.node v (rightChild l) r
               (1 + max (get_height (rightChild l)) (get_height r))))
             ("After Right Rotation at " ++ toString (value! x)) (some (value! x))])
    else if 1 < b ∧ get_balance l < 0 then
      match left_rotate l with
      | none => none
      | some l2 =>
        match right_rotate (.node v l2 r h) with
        | none => none
        | some x =>
          some (x,
            ["Left-Right Rotation (LR) at node " ++ toString v],
            [snapshot (plug (.node v l r h))
               ("LR rebalance before at " ++ toString v) (some v),
             snapshot (plug (.node v l2 r h))
               ("After left-rotation of left child of " ++ toString v) (some v),
             snapshot (plug (.node v (rightChild l2) r
                 (1 + max (get_height (rightChild l2)) (get_height r))))
               ("After right-rotation at " ++ toString (value! x)) (some (value! x))])
    else if b < -1 ∧ get_balance r ≤ 0 then
      match left_rotate (.node v l r h) with
      | none => none
      | some x =>
        some (x,
          ["Left Rotation (RR) at node " ++ toString v],
          [snapshot (plug (.node v l r h))
             ("RR rebalance before at " ++ toString v) (some v),
           snapshot (plug (.node v l (leftChild r)
               (1 + max (get_height l) (get_height (leftChild r)))))
             ("After Left Rotation at " ++ toString (value! x)) (some (value! x))])
    else if b < -1 ∧ 0 < get_balance r then
      match right_rotate r with
      | none => none
      | some r2 =>
        match left_rotate (.node v l r2 h) with
        | none => none
        | some x =>
          some (x,
            ["Right-Left Rotation (RL) at node " ++ toString v],
            [snapshot (plug (.node v l r h))
               ("RL rebalance before at " ++ toString v) (some v),
             snapshot (plug (.node v l r2 h))
               ("After right-rotation of right child of " ++ toString v) (some v),
             snapshot (plug (.node v l (leftChild r2)
                 (1 + max (get_height l) (get_height (leftChild r2)))))
               ("After left-rotation at " ++ toString (value! x)) (some (value! x))])
    else some (.node v l r h, [], [])

/-- Log/step-producing `_delete` (avl.py lines 159-231). -/
def deleteAux (plug : Node → Node) (node : Node) (key : Int) :
    Option (Node × List String × List StepRec) :=
  match node with
  | .nil => some (.nil, ["Key " ++ toString key ++ " not found."], [])
  | .node v l r h =>
    if key < v then
      match deleteAux (fun t => plug (.node v t r h)) l key with
      | none => none
      | some (l2, logs1, steps1) =>
        let n1 := update_height (.node v l2 r h)
        match delRebalanceFull plug n1 with
        | none => none
        | some (n2, logs2, steps2) =>
          some (n2,
            logs1 ++ ["At node " ++ toString v ++ ": height=" ++ toString (get_height n1)
              ++ ", balance=" ++ toString (get_balance n1)] ++ logs2,
            steps1 ++ steps2)
    else if v < key then
      match deleteAux (fun t => plug (.node v l t h)) r key with
      | none => none
      | some (r2, logs1, steps1) =>
        let n1 := update_height (.node v l r2 h)
        match delRebalanceFull plug n1 with
        | none => none
        | some (n2, logs2, steps2) =>
          some (n2,
            logs1 ++ ["At node " ++ toString v ++ ": height=" ++ toString (get_height n1)
              ++ ", balance=" ++ toString (get_balance n1)] ++ logs2,
            steps1 ++ steps2)
    else
      match l, r with
      | .nil, _ =>
        some (r,
          ["Found node " ++ toString v ++ " for deletion",
           "Node " ++ toString v ++ " has no left child, replace with right child"],
          [snapshot (plug (.node v l r h)) ("Deleting " ++ toString v) (some v)])
      | _, .nil =>
        some (l,
          ["Found node " ++ toString v ++ " for deletion",
           "Node " ++ toString v ++ " has no right child, replace with left child"],
          [snapshot (plug (.node v l r h)) ("Deleting " ++ toString v) (some v)])
      | _, _ =>
        match min_value_node r with
        | none => none
        | some .nil => none
        | some (.node mv _ _ _) =>
          match deleteAux (fun t => plug (.node mv l t h)) r mv with
          | none => none
          | some (r2, logs1, steps1) =>
            let n1 := update_height (.node mv l r2 h)
            match delRebalanceFull plug n1 with
            | none => none
            | some (n2, logs2, steps2) =>
              some (n2,
                ["Found node " ++ toString v ++ " for deletion",
                 "In-order successor is " ++ toString mv] ++ logs1
                  ++ ["At node " ++ toString mv ++ ": height=" ++ toString (get_height n1)
                      ++ ", balance=" ++ toString (get_balance n1)] ++ logs2,
                [snapshot (plug (.node v l r h)) ("Deleting " ++ toString v) (some v)]
                  ++ steps1 ++ steps2)

/-- Public `AVLTree.delete`: logs "Delete k" first, then runs `_delete` from
`self.root`. -/
def deleteFull (root : Node) (key : Int) :
    Option (Node × List String × List StepRec) :=
  match deleteAux id root key with
  | none => none
  | some (r2, logs, steps) => some (r2, ("Delete " ++ toString key) :: logs, steps)

/-! ### Duplicate insert and absent-key delete leave the tree unchanged -/

theorem insRebalanceFull_inRange (plug : Node → Node) (key v : Int) (l r : Node) (h : Nat)
    (hcl : heightCacheOk l = true) (hcr : heightCacheOk r = true)
    (hd1 : realHeight l ≤ realHeight r + 1) (hd2 : realHeight r ≤ realHeight l + 1) :
    insRebalanceFull plug key (update_height (.node v l r h))
      = some (.node v l r (1 + max (realHeight l) (realHeight r)), [], []) := by
  simp only [update_height, insRebalanceFull, get_balance, get_height_node,
    hc_get_height hcl, hc_get_height hcr]
  rw [if_neg (by omega), if_neg (by omega)]

theorem delRebalanceFull_inRange (plug : Node → Node) (v : Int) (l r : Node) (h : Nat)
    (hcl : heightCacheOk l = true) (hcr : heightCacheOk r = true)
    (hd1 : realHeight l ≤ realHeight r + 1) (hd2 : realHeight r ≤ realHeight l + 1) :
    delRebalanceFull plug (update_height (.node v l r h))
      = some (.node v l r (1 + max (realHeight l) (realHeight r)), [], []) := by
  simp only [update_height, delRebalanceFull, get_balance, get_height_node,
    hc_get_height hcl, hc_get_height hcr]
  rw [if_neg (by rintro ⟨hb, -⟩; omega), if_neg (by rintro ⟨hb, -⟩; omega),
    if_neg (by rintro ⟨hb, -⟩; omega), if_neg (by rintro ⟨hb, -⟩; omega)]

theorem insertT_dup : ∀ (t : Node) (key : Int), wfB t = true → memB t key = true →
    insertT t key = some t := by
  intro t
  induction t with
  | nil => intro key _ hmem; simp at hmem
  | node v l r h ihl ihr =>
    intro key hwf hmem
    simp only [wfB, Bool.and_eq_true] at hwf
    obtain ⟨⟨hbst, hhc⟩, hbal⟩ := hwf
    obtain ⟨⟨⟨hKL, hKR⟩, hbstl⟩, hbstr⟩ :
        ((allKeys (fun k => decide (k < v)) l = true
            ∧ allKeys (fun k => decide (v < k)) r = true)
          ∧ isBST l = true) ∧ isBST r = true := by
      simpa only [isBST_node, Bool.and_eq_true] using hbst
    have hcl : heightCacheOk l = true := by
      simp only [heightCacheOk_node, Bool.and_eq_true] at hhc; exact hhc.1.2
    have hcr : heightCacheOk r = true := by
      simp only [heightCacheOk_node, Bool.and_eq_true] at hhc; exact hhc.2
    have hh : h = 1 + max (realHeight l) (realHeight r) := by
      simp only [heightCacheOk_node, Bool.and_eq_true, beq_iff_eq] at hhc
      rw [hhc.1.1, hc_get_height hcl, hc_get_height hcr]
    have hball : isBalanced l = true := by
      simp only [isBalanced_node, Bool.and_eq_true] at hbal; exact hbal.1.2
    have hbalr : isBalanced r = true := by
      simp only [isBalanced_node, Bool.and_eq_true] at hbal; exact hbal.2
    have hrange : -1 ≤ (realHeight l : Int) - realHeight r
        ∧ (realHeight l : Int) - realHeight r ≤ 1 := by
      simp only [isBalanced_node, Bool.and_eq_true, decide_eq_true_eq] at hbal
      exact ⟨hbal.1.1.1, hbal.1.1.2⟩
    rcases lt_trichotomy key v with hkv | hkv | hkv
    · have hmeml : memB l key = true := by
        simp only [memB_node, Bool.or_eq_true, beq_iff_eq] at hmem
        rcases hmem with (h1 | h1) | h1
        · omega
        · exact h1
        · exfalso
          have := allKeys_iff.1 hKR key h1
          simp only [decide_eq_true_eq] at this
          omega
      have hwfl : wfB l = true := by simp [wfB, hbstl, hcl, hball]
      have hstep : insertT (.node v l r h) key
          = insRebalance key (update_height (.node v l r h)) := by
        simp only [insertT, ihl key hwfl hmeml]
        rw [if_pos hkv]
      rw [hstep, insRebalance_inRange key v l r h hcl hcr (by omega) (by omega), hh]
    · simp only [insertT]
      rw [if_neg (by omega), if_neg (by omega)]
    · have hmemr : memB r key = true := by
        simp only [memB_node, Bool.or_eq_true, beq_iff_eq] at hmem
        rcases hmem with (h1 | h1) | h1
        · omega
        · exfalso
          have := allKeys_iff.1 hKL key h1
          simp only [decide_eq_true_eq] at this
          omega
        · exact h1
      have hwfr : wfB r = true := by simp [wfB, hbstr, hcr, hbalr]
      have hstep : insertT (.node v l r h) key
          = insRebalance key (update_height (.node v l r h)) := by
        simp only [insertT, ihr key hwfr hmemr]
        rw [if_neg (by omega), if_pos hkv]
      rw [hstep, insRebalance_inRange key v l r h hcl hcr (by omega) (by omega), hh]

theorem insertAux_dup : ∀ (t : Node) (key : Int), wfB t = true → memB t key = true →
    ∀ (plug : Node → Node), ∃ logs, insertAux plug t key = some (t, logs, [])
      ∧ ("Key " ++ toString key ++ " already present; ignoring.") ∈ logs := by
  intro t
  induction t with
  | nil => intro key _ hmem; simp at hmem
  | node v l r h ihl ihr =>
    intro key hwf hmem plug
    simp only [wfB, Bool.and_eq_true] at hwf
    obtain ⟨⟨hbst, hhc⟩, hbal⟩ := hwf
    obtain ⟨⟨⟨hKL, hKR⟩, hbstl⟩, hbstr⟩ :
        ((allKeys (fun k => decide (k < v)) l = true
            ∧ allKeys (fun k => decide (v < k)) r = true)
          ∧ isBST l = true) ∧ isBST r = true := by
      simpa only [isBST_node, Bool.and_eq_true] using hbst
    have hcl : heightCacheOk l = true := by
      simp only [heightCacheOk_node, Bool.and_eq_true] at hhc; exact hhc.1.2
    have hcr : heightCacheOk r = true := by
      simp only [heightCacheOk_node, Bool.and_eq_true] at hhc; exact hhc.2
    have hh : h = 1 + max (realHeight l) (realHeight r) := by
      simp only [heightCacheOk_node, Bool.and_eq_true, beq_iff_eq] at hhc
      rw [hhc.1.1, hc_get_height hcl, hc_get_height hcr]
    have hball : isBalanced l = true := by
      simp only [isBalanced_node, Bool.and_eq_true] at hbal; exact hbal.1.2
    have hbalr : isBalanced r = true := by
      simp only [isBalanced_node, Bool.and_eq_true] at hbal; exact hbal.2
    have hrange : -1 ≤ (realHeight l : Int) - realHeight r
        ∧ (realHeight l : Int) - realHeight r ≤ 1 := by
      simp only [isBalanced_node, Bool.and_eq_true, decide_eq_true_eq] at hbal
      exact ⟨hbal.1.1.1, hbal.1.1.2⟩
    rcases lt_trichotomy key v with hkv | hkv | hkv
    · have hmeml : memB l key = true := by
        simp only [memB_node, Bool.or_eq_true, beq_iff_eq] at hmem
        rcases hmem with (h1 | h1) | h1
        · omega
        · exact h1
        · exfalso
          have := allKeys_iff.1 hKR key h1
          simp only [decide_eq_true_eq] at this
          omega
      have hwfl : wfB l = true := by simp [wfB, hbstl, hcl, hball]
      obtain ⟨logs1, heq1, hmsg1⟩ := ihl key hwfl hmeml (fun t => plug (.node v t r h))
      refine ⟨logs1 ++ ["At node " ++ toString v ++ ": height="
          ++ toString (get_height (update_height (.node v l r h)))
          ++ ", balance=" ++ toString (get_balance (update_height (.node v l r h)))], ?_, ?_⟩
      · simp only [insertAux, heq1]
        rw [if_pos hkv,
          insRebalanceFull_inRange plug key v l r h hcl hcr (by omega) (by omega)]
        simp [hh]
      · exact List.mem_append_left _ hmsg1
    · exact ⟨["Key " ++ toString key ++ " already present; ignoring."],
        by simp only [insertAux]; rw [if_neg (by omega), if_neg (by omega)],
        List.mem_singleton_self _⟩
    · have hmemr : memB r key = true := by
        simp only [memB_node, Bool.or_eq_true, beq_iff_eq] at hmem
        rcases hmem with (h1 | h1) | h1
        · omega
        · exfalso
          have := allKeys_iff.1 hKL key h1
          simp only [decide_eq_true_eq] at this
          omega
        · exact h1
      have hwfr : wfB r = true := by simp [wfB, hbstr, hcr, hbalr]
      obtain ⟨logs1, heq1, hmsg1⟩ := ihr key hwfr hmemr (fun t => plug (.node v l t h))
      refine ⟨logs1 ++ ["At node " ++ toString v ++ ": height="
          ++ toString (get_height (update_height (.node v l r h)))
          ++ ", balance=" ++ toString (get_balance (update_height (.node v l r h)))], ?_, ?_⟩
      · simp only [insertAux, heq1]
        rw [if_neg (by omega), if_pos hkv,
          insRebalanceFull_inRange plug key v l r h hcl hcr (by omega) (by omega)]
        simp [hh]
      · exact List.mem_append_left _ hmsg1

theorem deleteT_absent : ∀ (t : Node) (key : Int), wfB t = true → memB t key = false →
    deleteT t key = some t := by
  intro t
  induction t with
  | nil => intro key _ _; rfl
  | node v l r h ihl ihr =>
    intro key hwf hmem
    simp only [wfB, Bool.and_eq_true] at hwf
    obtain ⟨⟨hbst, hhc⟩, hbal⟩ := hwf
    obtain ⟨⟨⟨hKL, hKR⟩, hbstl⟩, hbstr⟩ :
        ((allKeys (fun k => decide (k < v)) l = true
            ∧ allKeys (fun k => decide (v < k)) r = true)
          ∧ isBST l = true) ∧ isBST r = true := by
      simpa only [isBST_node, Bool.and_eq_true] using hbst
    have hcl : heightCacheOk l = true := by
      simp only [heightCacheOk_node, Bool.and_eq_true] at hhc; exact hhc.1.2
    have hcr : heightCacheOk r = true := by
      simp only [heightCacheOk_node, Bool.and_eq_true] at hhc; exact hhc.2
    have hh : h = 1 + max (realHeight l) (realHeight r) := by
      simp only [heightCacheOk_node, Bool.and_eq_true, beq_iff_eq] at hhc
      rw [hhc.1.1, hc_get_height hcl, hc_get_height hcr]
    have hball : isBalanced l = true := by
      simp only [isBalanced_node, Bool.and_eq_true] at hbal; exact hbal.1.2
    have hbalr : isBalanced r = true := by
      simp only [isBalanced_node, Bool.and_eq_true] at hbal; exact hbal.2
    have hrange : -1 ≤ (realHeight l : Int) - realHeight r
        ∧ (realHeight l : Int) - realHeight r ≤ 1 := by
      simp only [isBalanced_node, Bool.and_eq_true, decide_eq_true_eq] at hbal
      exact ⟨hbal.1.1.1, hbal.1.1.2⟩
    simp only [memB_node, Bool.or_eq_false_iff, beq_eq_false_iff_ne] at hmem
    have hkv : key ≠ v := hmem.1.1
    rcases lt_trichotomy key v with hlt | hlt | hlt
    · have hwfl : wfB l = true := by simp [wfB, hbstl, hcl, hball]
      have hstep : deleteT (.node v l r h) key
          = delRebalance (update_height (.node v l r h)) := by
        simp only [deleteT, ihl key hwfl hmem.1.2]
        rw [if_pos hlt]
      rw [hstep, delRebalance_inRange v l r h hcl hcr (by omega) (by omega), hh]
    · exact absurd hlt hkv
    · have hwfr : wfB r = true := by simp [wfB, hbstr, hcr, hbalr]
      have hstep : deleteT (.node v l r h) key
          = delRebalance (update_height (.node v l r h)) := by
        simp only [deleteT, ihr key hwfr hmem.2]
        rw [if_neg (by omega), if_pos hlt]
      rw [hstep, delRebalance_inRange v l r h hcl hcr (by omega) (by omega), hh]

theorem deleteAux_absent : ∀ (t : Node) (key : Int), wfB t = true → memB t key = false →
    ∀ (plug : Node → Node), ∃ logs, deleteAux plug t key = some (t, logs, [])
      ∧ ("Key " ++ toString key ++ " not found.") ∈ logs := by
  intro t
  induction t with
  | nil =>
    intro key _ _ plug
    exact ⟨["Key " ++ toString key ++ " not found."], rfl, List.mem_singleton_self _⟩
  | node v l r h ihl ihr =>
    intro key hwf hmem plug
    simp only [wfB, Bool.and_eq_true] at hwf
    obtain ⟨⟨hbst, hhc⟩, hbal⟩ := hwf
    obtain ⟨⟨⟨hKL, hKR⟩, hbstl⟩, hbstr⟩ :
        ((allKeys (fun k => decide (k < v)) l = true
            ∧ allKeys (fun k => decide (v < k)) r = true)
          ∧ isBST l = true) ∧ isBST r = true := by
      simpa only [isBST_node, Bool.and_eq_true] using hbst
    have hcl : heightCacheOk l = true := by
      simp only [heightCacheOk_node, Bool.and_eq_true] at hhc; exact hhc.1.2
    have hcr : heightCacheOk r = true := by
      simp only [heightCacheOk_node, Bool.and_eq_true] at hhc; exact hhc.2
    have hh : h = 1 + max (realHeight l) (realHeight r) := by
      simp only [heightCacheOk_node, Bool.and_eq_true, beq_iff_eq] at hhc
      rw [hhc.1.1, hc_get_height hcl, hc_get_height hcr]
    have hball : isBalanced l = true := by
      simp only [isBalanced_node, Bool.and_eq_true] at hbal; exact hbal.1.2
    have hbalr : isBalanced r = true := by
      simp only [isBalanced_node, Bool.and_eq_true] at hbal; exact hbal.2
    have hrange : -1 ≤ (realHeight l : Int) - realHeight r
        ∧ (realHeight l : Int) - realHeight r ≤ 1 := by
      simp only [isBalanced_node, Bool.and_eq_true, decide_eq_true_eq] at hbal
      exact ⟨hbal.1.1.1, hbal.1.1.2⟩
    simp only [memB_node, Bool.or_eq_false_iff, beq_eq_false_iff_ne] at hmem
    have hkv : key ≠ v := hmem.1.1
    rcases lt_trichotomy key v with hlt | hlt | hlt
    · have hwfl : wfB l = true := by simp [wfB, hbstl, hcl, hball]
      obtain ⟨logs1, heq1, hmsg1⟩ :=
        ihl key hwfl hmem.1.2 (fun t => plug (.node v t r h))
      refine ⟨logs1 ++ ["At node " ++ toString v ++ ": height="
          ++ toString (get_height (update_height (.node v l r h)))
          ++ ", balance=" ++ toString (get_balance (update_height (.node v l r h)))], ?_, ?_⟩
      · simp only [deleteAux, heq1]
        rw [if_pos hlt,
          delRebalanceFull_inRange plug v l r h hcl hcr (by omega) (by omega)]
        simp [hh]
      · exact List.mem_append_left _ hmsg1
    · exact absurd hlt hkv
    · have hwfr : wfB r = true := by simp [wfB, hbstr, hcr, hbalr]
      obtain ⟨logs1, heq1, hmsg1⟩ :=
        ihr key hwfr hmem.2 (fun t => plug (.node v l t h))
      refine ⟨logs1 ++ ["At node " ++ toString v ++ ": height="
          ++ toString (get_height (update_height (.node v l r h)))
          ++ ", balance=" ++ toString (get_balance (update_height (.node v l r h)))], ?_, ?_⟩
      · simp only [deleteAux, heq1]
        rw [if_neg (by omega), if_pos hlt,
          delRebalanceFull_inRange plug v l r h hcl hcr (by omega) (by omega)]
        simp [hh]
      · exact List.mem_append_left _ hmsg1

/-! ### Deletion rebalancing dispatch, spec side -/

/-- Deletion rebalancing dispatch exactly as the spec words it (section 4.4
step 3): `balance > 1` with `balance(left) >= 0` is LL (single right
rotation), `balance > 1` with `balance(left) < 0` is LR, `balance < -1` with
`balance(right) <= 0` is RR (single left rotation), `balance < -1` with
`balance(right) > 0` is RL.  Refinement-side definition written from the
spec's words, to be compared with `delRebalance`, the embedding of the
code. -/
def delRebalanceSpec (n : Node) : Option Node :=
  match n with
  | .nil => none
  | .node v l r h =>
    let b := get_balance (.node v l r h)
    if 1 < b then
      if 0 ≤ get_balance l then
        right_rotate (.node v l r h)
      else
        match left_rotate l with
        | none => none
        | some l2 => right_rotate (.node v l2 r h)
    else if b < -1 then
      if get_balance r ≤ 0 then
        left_rotate (.node v l r h)
      else
        match right_rotate r with
        | none => none
        | some r2 => left_rotate (.node v l r2 h)
    else some (.node v l r h)

/-! ### The ten claims -/

/-- C1: for every tree built from the empty tree by a finite sequence of
insert and delete calls, immediately after each public operation every node
satisfies `-1 ≤ balance ≤ 1`, where the balance factor is the difference of
the subtrees' true heights. -/
theorem avl_balance_invariant {t : Node} (hr : Reachable t) : isBalanced t = true := by
  have h := reachable_wf hr
  simp only [wfB, Bool.and_eq_true] at h
  exact h.2

/-- Witness for `avl_balance_invariant`: the tree reached by inserting 10,
20, 30 into the empty tree. -/
theorem avl_balance_invariant_witness :
    isBalanced (.node 20 (.node 10 .nil .nil 1) (.node 30 .nil .nil 1) 2) = true :=
  avl_balance_invariant
    (Reachable.ins (Reachable.ins (Reachable.ins Reachable.empty
      (show insertT .nil 10 = some (.node 10 .nil .nil 1) by decide))
      (show insertT (.node 10 .nil .nil 1) 20
        = some (.node 10 .nil (.node 20 .nil .nil 1) 2) by decide))
      (show insertT (.node 10 .nil (.node 20 .nil .nil 1) 2) 30
        = some (.node 20 (.node 10 .nil .nil 1) (.node 30 .nil .nil 1) 2) by decide))

/-- C2: for every tree built from the empty tree by insert/delete calls, the
BST order invariant holds (left keys strictly smaller, right keys strictly
greater at every node) and, equivalently, the in-order key sequence is
strictly increasing. -/
theorem bst_order_invariant {t : Node} (hr : Reachable t) :
    isBST t = true ∧ List.Pairwise (· < ·) (inorder t) := by
  have h := reachable_wf hr
  simp only [wfB, Bool.and_eq_true] at h
  exact ⟨h.1.1, isBST_iff_pairwise.1 h.1.1⟩

/-- Witness for `bst_order_invariant`: insert 10, 20, 30, then delete 10. -/
theorem bst_order_invariant_witness :
    isBST (.node 20 .nil (.node 30 .nil .nil 1) 2) = true
      ∧ List.Pairwise (· < ·) (inorder (.node 20 .nil (.node 30 .nil .nil 1) 2)) :=
  bst_order_invariant
    (Reachable.del (Reachable.ins (Reachable.ins (Reachable.ins Reachable.empty
      (show insertT .nil 10 = some (.node 10 .nil .nil 1) by decide))
      (show insertT (.node 10 .nil .nil 1) 20
        = some (.node 10 .nil (.node 20 .nil .nil 1) 2) by decide))
      (show insertT (.node 10 .nil (.node 20 .nil .nil 1) 2) 30
        = some (.node 20 (.node 10 .nil .nil 1) (.node 30 .nil .nil 1) 2) by decide))
      (show deleteT (.node 20 (.node 10 .nil .nil 1) (.node 30 .nil .nil 1) 2) 10
        = some (.node 20 .nil (.node 30 .nil .nil 1) 2) by decide))

/-- C3: for every tree built from the empty tree by insert/delete calls, the
cached `height` field of every node equals
`1 + max(height(left), height(right))`, an absent child contributing 0 and a
leaf having height 1. -/
theorem height_cache_invariant {t : Node} (hr : Reachable t) :
    heightCacheOk t = true := by
  have h := reachable_wf hr
  simp only [wfB, Bool.and_eq_true] at h
  exact h.1.2

/-- Witness for `height_cache_invariant`: the tree reached by inserting 10,
20, 30. -/
theorem height_cache_invariant_witness :
    heightCacheOk (.node 20 (.node 10 .nil .nil 1) (.node 30 .nil .nil 1) 2) = true :=
  height_cache_invariant
    (Reachable.ins (Reachable.ins (Reachable.ins Reachable.empty
      (show insertT .nil 10 = some (.node 10 .nil .nil 1) by decide))
      (show insertT (.node 10 .nil .nil 1) 20
        = some (.node 10 .nil (.node 20 .nil .nil 1) 2) by decide))
      (show insertT (.node 10 .nil (.node 20 .nil .nil 1) 2) 30
        = some (.node 20 (.node 10 .nil .nil 1) (.node 30 .nil .nil 1) 2) by decide))

/-- C4 fails on the code: `_snapshot` deep-copies `self.root`, which
mid-recursion does not yet reflect the step's change — the new leaf is not
yet attached (the parent assignment runs only after `_insert` returns), and
after `node = rotate(node)` the parent still references the demoted node, so
the new local root is absent from the copy.  Evaluated at the failing inputs:
inserting 10 into the empty tree records an "Inserted 10" snapshot of the
EMPTY graph, and inserting 30 after 10, 20 records an "Inserted 30" snapshot
missing key 30 and an "After Left Rotation at 20" snapshot showing only the
single node 10 (keys 20 and 30, present in the tree, are missing). -/
theorem snapshot_stale_view :
    insertFull .nil 10
      = some (.node 10 .nil .nil 1, ["Insert 10", "Created node 10"],
          [⟨"Inserted 10", Gv.emptyGraph⟩])
    ∧ (insertFull (.node 10 .nil (.node 20 .nil .nil 1) 2) 30).map (fun x => x.2.2)
      = some
          [⟨"Inserted 30", tree_to_graphviz (.node 10 .nil (.node 20 .nil .nil 1) 2) none⟩,
           ⟨"RR case before rotation at 10",
             tree_to_graphviz (.node 10 .nil (.node 20 .nil (.node 30 .nil .nil 1) 2) 3) none⟩,
           ⟨"After Left Rotation at 20", tree_to_graphviz (.node 10 .nil .nil 1) none⟩] := by
  exact ⟨by decide, by decide⟩

/-- C5 fails on the code: a recorded step carries only a description and a
graph — the focus node's key is passed to `tree_to_graphviz` as
`highlight_node`, which `visualize.py` never reads, so the rendered graph is
identical with and without a focus and no focus key survives into the step.
Evaluated at delete(10) on the singleton tree, whose "Deleting 10" step names
node 10 but is indistinguishable from an unfocused rendering. -/
theorem step_focus_dropped :
    (∀ (t : Node) (k : Int), tree_to_graphviz t (some k) = tree_to_graphviz t none)
    ∧ deleteFull (.node 10 .nil .nil 1) 10
      = some (.nil,
          ["Delete 10", "Found node 10 for deletion",
           "Node 10 has no left child, replace with right child"],
          [⟨"Deleting 10", tree_to_graphviz (.node 10 .nil .nil 1) none⟩]) :=
  ⟨fun t k => rfl, by decide⟩

/-- C6: inserting a key that is already present leaves the tree exactly
unchanged (the very same tree value: no node added, no rotation, no height
changed), appends no snapshot beyond the duplicate log line, and consequently
inserting the same key twice produces the same tree as inserting it once. -/
theorem insert_duplicate_idempotent (t : Node) (key : Int) (hwf : wfB t = true) :
    (memB t key = true →
      insertT t key = some t
      ∧ ∃ logs, insertFull t key = some (t, logs, [])
          ∧ ("Key " ++ toString key ++ " already present; ignoring.") ∈ logs)
    ∧ (∀ t1, insertT t key = some t1 → insertT t1 key = some t1) := by
  constructor
  · intro hmem
    refine ⟨insertT_dup t key hwf hmem, ?_⟩
    obtain ⟨logs, heq, hmsg⟩ := insertAux_dup t key hwf hmem id
    refine ⟨("Insert " ++ toString key) :: logs, ?_, List.mem_cons_of_mem _ hmsg⟩
    simp only [insertFull, heq]
  · intro t1 heq1
    have hwf1 := wfB_insert hwf heq1
    simp only [wfB, Bool.and_eq_true] at hwf
    obtain ⟨t2, heq2, -, -, -, hmem2, -, -⟩ := insertT_main t key hwf.1.1 hwf.1.2 hwf.2
    rw [heq1] at heq2
    injection heq2 with hh
    subst hh
    exact insertT_dup t1 key hwf1 ((hmem2 key).2 (Or.inr rfl))

/-- Witness for `insert_duplicate_idempotent`: re-inserting 10 into the
singleton tree holding 10 returns the very same tree. -/
theorem insert_duplicate_idempotent_witness :
    wfB (.node 10 .nil .nil 1) = true
    ∧ memB (.node 10 .nil .nil 1) 10 = true
    ∧ insertT (.node 10 .nil .nil 1) 10 = some (.node 10 .nil .nil 1) :=
  ⟨by decide, by decide,
    ((insert_duplicate_idempotent (.node 10 .nil .nil 1) 10 (by decide)).1 (by decide)).1⟩

/-- C7: deleting a key absent from the tree (including from the empty tree)
logs "not found", leaves the tree exactly unchanged, returns an empty step
sequence and a `some` result (no exception), and leaves `count_nodes`
unchanged. -/
theorem delete_absent_unchanged (t : Node) (key : Int) (hwf : wfB t = true)
    (habs : memB t key = false) :
    deleteT t key = some t
    ∧ (∃ logs, deleteFull t key = some (t, logs, [])
        ∧ ("Key " ++ toString key ++ " not found.") ∈ logs)
    ∧ (∀ t2 logs2 steps2, deleteFull t key = some (t2, logs2, steps2) →
        count_nodes t2 = count_nodes t) := by
  obtain ⟨logs, heq, hmsg⟩ := deleteAux_absent t key hwf habs id
  have hd : deleteFull t key = some (t, ("Delete " ++ toString key) :: logs, []) := by
    simp only [deleteFull, heq]
  refine ⟨deleteT_absent t key hwf habs,
    ⟨("Delete " ++ toString key) :: logs, hd, List.mem_cons_of_mem _ hmsg⟩, ?_⟩
  intro t2 logs2 steps2 heq2
  rw [hd] at heq2
  simp only [Option.some.injEq, Prod.mk.injEq] at heq2
  rw [← heq2.1]

/-- Witness for `delete_absent_unchanged`: deleting 99 from the empty tree. -/
theorem delete_absent_unchanged_witness :
    wfB .nil = true ∧ memB .nil 99 = false ∧ deleteT .nil 99 = some .nil :=
  ⟨by decide, by decide, (delete_absent_unchanged .nil 99 (by decide) (by decide)).1⟩

/-- C8: the deletion unwind passes every non-absent ancestor through
`delRebalance` (the two descent equations), and `delRebalance` dispatches on
the child's balance sign exactly as the spec states: `balance > 1` with
`balance(left) ≥ 0` is LL (single right rotation), `balance > 1` with
`balance(left) < 0` is LR, `balance < -1` with `balance(right) ≤ 0` is RR
(single left rotation), `balance < -1` with `balance(right) > 0` is RL —
formalised as equality with `delRebalanceSpec`, the dispatch written from the
spec's words. -/
theorem delete_rebalance_dispatch :
    (∀ n, delRebalance n = delRebalanceSpec n)
    ∧ (∀ (v : Int) (l r : Node) (h : Nat) (key : Int), key < v →
        deleteT (.node v l r h) key
          = (deleteT l key).bind (fun l2 => delRebalance (update_height (.node v l2 r h))))
    ∧ (∀ (v : Int) (l r : Node) (h : Nat) (key : Int), v < key →
        deleteT (.node v l r h) key
          = (deleteT r key).bind (fun r2 => delRebalance (update_height (.node v l r2 h)))) := by
  refine ⟨?_, ?_, ?_⟩
  · intro n
    cases n with
    | nil => rfl
    | node v l r h =>
      simp only [delRebalance, delRebalanceSpec]
      by_cases h1 : 1 < get_balance (.node v l r h)
      · by_cases h2 : 0 ≤ get_balance l
        · rw [if_pos ⟨h1, h2⟩, if_pos h1, if_pos h2]
        · rw [if_neg (fun hc => h2 hc.2), if_pos ⟨h1, by omega⟩, if_pos h1, if_neg h2]
      · by_cases h3 : get_balance (.node v l r h) < -1
        · by_cases h4 : get_balance r ≤ 0
          · rw [if_neg (fun hc => h1 hc.1), if_neg (fun hc => h1 hc.1), if_pos ⟨h3, h4⟩,
              if_neg h1, if_pos h3, if_pos h4]
          · rw [if_neg (fun hc => h1 hc.1), if_neg (fun hc => h1 hc.1),
              if_neg (fun hc => h4 hc.2), if_pos ⟨h3, by omega⟩,
              if_neg h1, if_pos h3, if_neg h4]
        · rw [if_neg (fun hc => h1 hc.1), if_neg (fun hc => h1 hc.1),
            if_neg (fun hc => h3 hc.1), if_neg (fun hc => h3 hc.1),
            if_neg h1, if_neg h3]
  · intro v l r h key hk
    simp only [deleteT]
    rw [if_pos hk]
    cases hl : deleteT l key <;> rfl
  · intro v l r h key hk
    simp only [deleteT]
    rw [if_neg (by omega), if_pos hk]
    cases hl : deleteT r key <;> rfl

/-- Witness for `delete_rebalance_dispatch` at concrete inputs. -/
theorem delete_rebalance_dispatch_witness :
    delRebalance (.node 5 (.node 3 .nil .nil 1) .nil 2)
      = delRebalanceSpec (.node 5 (.node 3 .nil .nil 1) .nil 2)
    ∧ deleteT (.node 5 (.node 3 .nil .nil 1) .nil 2) 3
      = (deleteT (.node 3 .nil .nil 1) 3).bind
          (fun l2 => delRebalance (update_height (.node 5 l2 .nil 2)))
    ∧ deleteT (.node 5 .nil (.node 7 .nil .nil 1) 2) 7
      = (deleteT (.node 7 .nil .nil 1) 7).bind
          (fun r2 => delRebalance (update_height (.node 5 .nil r2 2))) :=
  ⟨delete_rebalance_dispatch.1 _,
   delete_rebalance_dispatch.2.1 5 (.node 3 .nil .nil 1) .nil 2 3 (by decide),
   delete_rebalance_dispatch.2.2 5 .nil (.node 7 .nil .nil 1) 2 7 (by decide)⟩

/-- C9 as stated is false on the code: inserting 10, 20, 30 triggers the RR
case at node 10 (the node whose balance is -2), not "at key 20" — no log line
reports an RR rotation at node 20. -/
theorem rr_case_not_at_20 :
    (insertFull (.node 10 .nil (.node 20 .nil .nil 1) 2) 30).map
      (fun x => x.2.1.contains "Left Rotation (RR) at node 20")
      = some false := by decide

/-- C9 amended: inserting 10, 20, 30 in order triggers the RR case at node 10
(logged "Left Rotation (RR) at node 10"), a single left rotation whose new
local root is 20; the resulting tree has root key 20 with left child 10 and
right child 30, both leaves at height 1 and the root at height 2. -/
theorem rr_scenario_10_20_30 :
    insertT .nil 10 = some (.node 10 .nil .nil 1)
    ∧ insertT (.node 10 .nil .nil 1) 20 = some (.node 10 .nil (.node 20 .nil .nil 1) 2)
    ∧ (insertFull (.node 10 .nil (.node 20 .nil .nil 1) 2) 30).map
        (fun x => (x.1, x.2.1.contains "Left Rotation (RR) at node 10"))
      = some (.node 20 (.node 10 .nil .nil 1) (.node 30 .nil .nil 1) 2, true) := by
  exact ⟨by decide, by decide, by decide⟩

/-- C10: starting from any tree satisfying the three invariants, insert and
delete never dereference an absent child: every rotation's child access and
`_min_value_node`'s argument are present, so the `none` (AttributeError)
branches of the embedding are unreachable and both operations return `some`;
`min_value_node` itself succeeds on every present node. -/
theorem no_absent_child_access (t : Node) (key : Int) (hwf : wfB t = true) :
    (insertT t key).isSome = true ∧ (deleteT t key).isSome = true
    ∧ (∀ n : Node, n ≠ .nil → (min_value_node n).isSome = true) := by
  simp only [wfB, Bool.and_eq_true] at hwf
  obtain ⟨t2, heq, -, -, -, -, -, -⟩ := insertT_main t key hwf.1.1 hwf.1.2 hwf.2
  obtain ⟨t3, heq3, -, -, -, -, -⟩ := deleteT_main t key hwf.1.1 hwf.1.2 hwf.2
  exact ⟨by rw [heq]; rfl, by rw [heq3]; rfl, min_value_node_isSome⟩

/-- Witness for `no_absent_child_access` at a concrete balanced tree. -/
theorem no_absent_child_access_witness :
    wfB (.node 20 (.node 10 .nil .nil 1) (.node 30 .nil .nil 1) 2) = true
    ∧ (insertT (.node 20 (.node 10 .nil .nil 1) (.node 30 .nil .nil 1) 2) 25).isSome = true
    ∧ (deleteT (.node 20 (.node 10 .nil .nil 1) (.node 30 .nil .nil 1) 2) 25).isSome = true
    ∧ (min_value_node (.node 20 (.node 10 .nil .nil 1) (.node 30 .nil .nil 1) 2)).isSome
        = true :=
  ⟨by decide,
   (no_absent_child_access (.node 20 (.node 10 .nil .nil 1) (.node 30 .nil .nil 1) 2) 25
     (by decide)).1,
   (no_absent_child_access (.node 20 (.node 10 .nil .nil 1) (.node 30 .nil .nil 1) 2) 25
     (by decide)).2.1,
   (no_absent_child_access (.node 20 (.node 10 .nil .nil 1) (.node 30 .nil .nil 1) 2) 25
     (by decide)).2.2 _ (by decide)⟩

end Avl
